import Mathlib

/-
Verification of the astrewrite tree-rewrite engine (astrewrite.go).

The Go package walks a go/ast syntax tree depth first.  At each node the
caller-supplied visitor `fn` is invoked; it returns a (possibly different,
possibly nil) node and a bool telling the walker whether to descend.  The
walker then rewrites each child slot of the ORIGINAL node from the result of
recursively walking that slot, using Go type assertions to decide whether the
returned value fits the slot.  A nil result is the removal signal.

This file gives a shallow embedding of the package for a representative
subset of the node kinds handled by the `switch` in Walk (astrewrite.go,
lines 37-388), chosen to cover every kind the claims under study mention:
Comment, CommentGroup, Ident, BasicLit, Field, FieldList, ParenExpr,
CallExpr, StructType, ExprStmt, BlockStmt, TypeSpec and GenDecl, plus a
constructor `unknown` standing for a dynamic type that is absent from the
switch (which hits the `default: panic(...)` arm).

Go pointer/interface semantics are embedded as follows.

* A node-typed field that may be nil is `Option Node`; `Walk`'s `isNil`
  early return is the `none` case of `walkOpt`.
* The visitor may return its argument (the same pointer), a different node,
  or nil.  Because the walker mutates children of the original node in
  place and then returns the visitor's value, pointer identity of the
  returned value is observable; the embedding therefore keeps the three
  cases apart in `VisitResult` (`keep` = returned the argument itself,
  `replace r` = returned a different node, `remove` = returned nil).
* Visitor closures carry state; the embedding threads an explicit state σ.
* A Go type assertion `v, ok := x.(T)` is one of the `as*` filters below
  (they yield `none` exactly when the assertion's `ok` is false, i.e. when
  the value is the nil interface or not of family/type T).  An assertion
  written without the comma-ok form panics in those cases; the embedding
  returns `Except.error .assertFailed` there.
* The `default` arm's panic for an unrecognized node type is
  `Except.error .unknownNode`.
-/

namespace Arw

/-- Node kinds, mirroring the go/ast structs walked by astrewrite.go, with
the child slots that Walk touches.  Positions, token kinds and other
non-node payload are dropped; `Nat` payloads stand for the identifying text
(comment text, identifier name, literal value) so distinct source atoms stay
distinct.  `unknown` stands for a node whose dynamic type is not one of the
cases of Walk's switch statement. -/
inductive Node where
  | comment (text : Nat)
  | commentGroup (list : List Node)
  | ident (name : Nat)
  | basicLit (value : Nat)
  | field (names : List Node) (ftype : Option Node) (tag : Option Node)
      (doc : Option Node) (fcomment : Option Node)
  | fieldList (list : List Node)
  | parenExpr (x : Option Node)
  | callExpr (func : Option Node) (args : List Node)
  | structType (fields : Option Node)
  | exprStmt (x : Option Node)
  | blockStmt (list : List Node)
  | typeSpec (doc : Option Node) (name : Option Node) (ttype : Option Node)
      (tcomment : Option Node)
  | genDecl (doc : Option Node) (specs : List Node)
  | unknown

/-- Result of one visitor call: the Go visitor returns an ast.Node which is
nil (`remove`), the argument pointer itself (`keep`), or some other node
(`replace r`). -/
inductive VisitResult where
  | remove
  | keep
  | replace (r : Node)

/-- The two fatal conditions: a type assertion without the comma-ok form
failing (Go run-time panic at the assertion), and the `default` arm of
Walk's switch (explicit panic for an unexpected node type). -/
inductive Err where
  | assertFailed
  | unknownNode
deriving DecidableEq

/-- WalkFunc from astrewrite.go, with the closure state made explicit:
given the state and the node (`none` is the post-order `fn(nil)` call, and
never a real node), produce the new state, the returned node and the
descend flag. -/
abbrev Visitor (σ : Type) := σ → Option Node → σ × VisitResult × Bool

/-- Family check for Go's `ast.Expr` interface: which of the embedded kinds
implement exprNode().  Idents, literals, parenthesized/call expressions and
struct types are expressions; `unknown` stands for a type outside the
taxonomy and is not given any family. -/
def isExpr : Node → Bool
  | .ident _ | .basicLit _ | .parenExpr _ | .callExpr _ _ | .structType _ => true
  | _ => false

/-- Family check for `ast.Stmt` among the embedded kinds. -/
def isStmt : Node → Bool
  | .exprStmt _ | .blockStmt _ => true
  | _ => false

/-- Family check for `ast.Spec` among the embedded kinds. -/
def isSpec : Node → Bool
  | .typeSpec _ _ _ _ => true
  | _ => false

/-- Go comma-ok assertion `.(ast.Expr)`: fails on the nil interface and on
values outside the expression family. -/
def asExpr : Option Node → Option Node
  | some n => if isExpr n then some n else none
  | none => none

/-- Go comma-ok assertion `.(ast.Stmt)`. -/
def asStmt : Option Node → Option Node
  | some n => if isStmt n then some n else none
  | none => none

/-- Go comma-ok assertion `.(ast.Spec)`. -/
def asSpec : Option Node → Option Node
  | some n => if isSpec n then some n else none
  | none => none

/-- Go comma-ok assertion `.(*ast.Ident)`. -/
def asIdent : Option Node → Option Node
  | some (.ident v) => some (.ident v)
  | _ => none

/-- Go comma-ok assertion `.(*ast.Comment)` combined with the `c != nil`
test of the CommentGroup loop. -/
def asComment : Option Node → Option Node
  | some (.comment t) => some (.comment t)
  | _ => none

/-- Go comma-ok assertion `.(*ast.CommentGroup)`. -/
def asCommentGroup : Option Node → Option Node
  | some (.commentGroup l) => some (.commentGroup l)
  | _ => none

/-- Go comma-ok assertion `.(*ast.BasicLit)`. -/
def asBasicLit : Option Node → Option Node
  | some (.basicLit v) => some (.basicLit v)
  | _ => none

/-- Go comma-ok assertion `.(*ast.Field)`. -/
def asField : Option Node → Option Node
  | some (.field a b c d e) => some (.field a b c d e)
  | _ => none

/-- Go comma-ok assertion `.(*ast.FieldList)` combined with the
`n.Fields == nil` test. -/
def asFieldList : Option Node → Option Node
  | some (.fieldList l) => some (.fieldList l)
  | _ => none

/-- What Walk finally returns for visitor result `res`, given the node `m`
that the in-place child rewriting produced: nil for removal, the mutated
original for `keep` (the visitor returned the very pointer that was
mutated), and the untouched replacement for `replace`. -/
def applyRes : VisitResult → Node → Option Node
  | .remove, _ => none
  | .keep, n => some n
  | .replace r, _ => some r

mutual

/-- Walk from astrewrite.go (lines 25-393).  Calls the visitor; if the
descend flag is false the visitor's value is returned at once.  Otherwise
the children of the ORIGINAL node are walked (`walkChildren`); a `none`
from `walkChildren` is one of the bare `return` statements inside the
switch (cascade removal: `fn(nil)` is skipped and the named return `ret`
still holds nil).  After a completed switch, `fn(nil)` is called, its value
discarded, and the visitor's value from the pre-order call is returned. -/
def walk {σ : Type} (fn : Visitor σ) (st : σ) (n : Node) : Except Err (σ × Option Node) :=
  let r := fn st (some n)
  if r.2.2 then
    match walkChildren fn r.1 n with
    | .error e => .error e
    | .ok (st2, none) => .ok (st2, none)
    | .ok (st2, some m) => .ok ((fn st2 none).1, applyRes r.2.1 m)
  else
    .ok (r.1, applyRes r.2.1 n)

/-- The switch statement of Walk (astrewrite.go, lines 37-388), rewriting
the child slots of `n` in source order.  `ok (st, some m)` is the node with
its slots rewritten; `ok (st, none)` is a bare `return` inside the switch
(the node is considered removed and `fn(nil)` must not run);
`error .assertFailed` is a panicking type assertion, and
`error .unknownNode` is the `default: panic` arm.  In the TypeSpec and
GenDecl cases the Go code tests `!= nil` on the Comment/Doc field after the
earlier slots are walked; since that field is plain data unaffected by
those walks, the test is hoisted to the top of the case here, which
computes the same function. -/
def walkChildren {σ : Type} (fn : Visitor σ) (st : σ) (n : Node) :
    Except Err (σ × Option Node) :=
  match n with
  | .comment t => .ok (st, some (.comment t))
  | .commentGroup l =>
    match walkList fn asComment st l with
    | .error e => .error e
    | .ok (st1, out) => .ok (st1, some (.commentGroup out))
  | .ident v => .ok (st, some (.ident v))
  | .basicLit v => .ok (st, some (.basicLit v))
  | .field names ftype tag doc fcomment =>
    match walkList fn asIdent st names with
    | .error e => .error e
    | .ok (st1, names1) =>
      match walkOpt fn st1 ftype with
      | .error e => .error e
      | .ok (st2, tr) =>
        match asExpr tr with
        | none => .ok (st2, none)
        | some t =>
          match walkOpt fn st2 tag with
          | .error e => .error e
          | .ok (st3, tagR) =>
            match walkOpt fn st3 doc with
            | .error e => .error e
            | .ok (st4, docR) =>
              match walkOpt fn st4 fcomment with
              | .error e => .error e
              | .ok (st5, comR) =>
                .ok (st5, some (.field names1 (some t) (asBasicLit tagR)
                  (asCommentGroup docR) (asCommentGroup comR)))
  | .fieldList l =>
    if l.isEmpty then .ok (st, some (.fieldList l))
    else
      match walkList fn asField st l with
      | .error e => .error e
      | .ok (st1, out) =>
        if out.isEmpty then .ok (st1, none) else .ok (st1, some (.fieldList out))
  | .parenExpr x =>
    match walkOpt fn st x with
    | .error e => .error e
    | .ok (st1, xr) =>
      match asExpr xr with
      | some e => .ok (st1, some (.parenExpr (some e)))
      | none => .error .assertFailed
  | .callExpr func args =>
    match walkOpt fn st func with
    | .error e => .error e
    | .ok (st1, fr) =>
      match asExpr fr with
      | none => .ok (st1, none)
      | some f =>
        match walkList fn asExpr st1 args with
        | .error e => .error e
        | .ok (st2, args1) => .ok (st2, some (.callExpr (some f) args1))
  | .structType fields =>
    match walkOpt fn st fields with
    | .error e => .error e
    | .ok (st1, flr) =>
      match asFieldList flr with
      | none => .ok (st1, none)
      | some fl => .ok (st1, some (.structType (some fl)))
  | .exprStmt x =>
    match walkOpt fn st x with
    | .error e => .error e
    | .ok (st1, xr) =>
      match asExpr xr with
      | none => .ok (st1, none)
      | some e => .ok (st1, some (.exprStmt (some e)))
  | .blockStmt l =>
    match walkList fn asStmt st l with
    | .error e => .error e
    | .ok (st1, out) => .ok (st1, some (.blockStmt out))
  | .typeSpec doc name ttype tcomment =>
    match tcomment with
    | none =>
      match walkOpt fn st name with
      | .error e => .error e
      | .ok (st1, nr) =>
        match walkOpt fn st1 ttype with
        | .error e => .error e
        | .ok (st2, tr) => .ok (st2, some (.typeSpec doc name ttype none))
    | some c =>
      match walkOpt fn st name with
      | .error e => .error e
      | .ok (st1, nr) =>
        match walkOpt fn st1 ttype with
        | .error e => .error e
        | .ok (st2, tr) =>
          match walk fn st2 c with
          | .error e => .error e
          | .ok (st3, cr) =>
            match asCommentGroup cr with
            | some cg => .ok (st3, some (.typeSpec doc name ttype (some cg)))
            | none => .error .assertFailed
  | .genDecl doc specs =>
    match doc with
    | none =>
      match walkList fn asSpec st specs with
      | .error e => .error e
      | .ok (st1, specs1) =>
        if specs1.isEmpty then .ok (st1, none) else .ok (st1, some (.genDecl none specs1))
    | some d =>
      match walkList fn asSpec st specs with
      | .error e => .error e
      | .ok (st1, specs1) =>
        if specs1.isEmpty then .ok (st1, none)
        else
          match walk fn st1 d with
          | .error e => .error e
          | .ok (st2, dr) =>
            match asCommentGroup dr with
            | some cg => .ok (st2, some (.genDecl (some cg) specs1))
            | none => .error .assertFailed
  | .unknown => .error .unknownNode

/-- Walk applied to a possibly nil node field; the nil case is the `isNil`
early return at the top of Walk (no visitor call). -/
def walkOpt {σ : Type} (fn : Visitor σ) (st : σ) (o : Option Node) :
    Except Err (σ × Option Node) :=
  match o with
  | none => .ok (st, none)
  | some n => walk fn st n

/-- The shared element loop of walkIdentList, walkExprList, walkStmtList,
walkSpecList (astrewrite.go, lines 412-471), of the CommentGroup loop
(lines 43-48) and of the FieldList loop (lines 74-81): walk each element in
order, keep the results that pass the loop's type assertion `keepF`, drop
the rest.  The Go loops additionally call nukeComments on each dropped
element; that call mutates only the dropped element, which owns its
subtree exclusively, so it has no effect on the walker's output and is not
repeated here. -/
def walkList {σ : Type} (fn : Visitor σ) (keepF : Option Node → Option Node) (st : σ)
    (l : List Node) : Except Err (σ × List Node) :=
  match l with
  | [] => .ok (st, [])
  | x :: rest =>
    match walk fn st x with
    | .error e => .error e
    | .ok (st1, r) =>
      match walkList fn keepF st1 rest with
      | .error e => .error e
      | .ok (st2, out) =>
        match keepF r with
        | some v => .ok (st2, v :: out)
        | none => .ok (st2, out)

end

/-- walkIdentList from astrewrite.go (lines 412-422). -/
def walkIdentList {σ : Type} (fn : Visitor σ) (st : σ) (l : List Node) :
    Except Err (σ × List Node) :=
  walkList fn asIdent st l

/-- walkExprList from astrewrite.go (lines 424-434). -/
def walkExprList {σ : Type} (fn : Visitor σ) (st : σ) (l : List Node) :
    Except Err (σ × List Node) :=
  walkList fn asExpr st l

/-- walkStmtList from astrewrite.go (lines 436-446). -/
def walkStmtList {σ : Type} (fn : Visitor σ) (st : σ) (l : List Node) :
    Except Err (σ × List Node) :=
  walkList fn asStmt st l

/-- walkSpecList from astrewrite.go (lines 460-471). -/
def walkSpecList {σ : Type} (fn : Visitor σ) (st : σ) (l : List Node) :
    Except Err (σ × List Node) :=
  walkList fn asSpec st l

mutual

/-- nukeComments from astrewrite.go (lines 395-410): ast.Inspect over the
subtree, emptying the List of every CommentGroup encountered and not
descending below it.  Expressed functionally: the value is the cleared
copy of the subtree (the Go original mutates in place). -/
def nukeComments : Node → Node
  | .comment t => .comment t
  | .commentGroup _ => .commentGroup []
  | .ident v => .ident v
  | .basicLit v => .basicLit v
  | .field names ftype tag doc fcomment =>
    .field (nukeCommentsList names) (nukeCommentsOpt ftype) (nukeCommentsOpt tag)
      (nukeCommentsOpt doc) (nukeCommentsOpt fcomment)
  | .fieldList l => .fieldList (nukeCommentsList l)
  | .parenExpr x => .parenExpr (nukeCommentsOpt x)
  | .callExpr f args => .callExpr (nukeCommentsOpt f) (nukeCommentsList args)
  | .structType f => .structType (nukeCommentsOpt f)
  | .exprStmt x => .exprStmt (nukeCommentsOpt x)
  | .blockStmt l => .blockStmt (nukeCommentsList l)
  | .typeSpec d n t c =>
    .typeSpec (nukeCommentsOpt d) (nukeCommentsOpt n) (nukeCommentsOpt t) (nukeCommentsOpt c)
  | .genDecl d s => .genDecl (nukeCommentsOpt d) (nukeCommentsList s)
  | .unknown => .unknown
  termination_by structural n => n

/-- nukeComments over the elements of a child list. -/
def nukeCommentsList : List Node → List Node
  | [] => []
  | x :: xs => nukeComments x :: nukeCommentsList xs
  termination_by structural l => l

/-- nukeComments over an optional child. -/
def nukeCommentsOpt : Option Node → Option Node
  | none => none
  | some n => some (nukeComments n)
  termination_by structural o => o

end

mutual

/-- The comment texts (annotations) present anywhere in a subtree: every
Comment node reachable from the root, in left-to-right slot order. -/
def annots : Node → List Nat
  | .comment t => [t]
  | .commentGroup l => annotsList l
  | .ident _ => []
  | .basicLit _ => []
  | .field names ftype tag doc fcomment =>
    annotsList names ++ annotsOpt ftype ++ annotsOpt tag ++ annotsOpt doc ++ annotsOpt fcomment
  | .fieldList l => annotsList l
  | .parenExpr x => annotsOpt x
  | .callExpr f args => annotsOpt f ++ annotsList args
  | .structType f => annotsOpt f
  | .exprStmt x => annotsOpt x
  | .blockStmt l => annotsList l
  | .typeSpec d n t c => annotsOpt d ++ annotsOpt n ++ annotsOpt t ++ annotsOpt c
  | .genDecl d s => annotsOpt d ++ annotsList s
  | .unknown => []
  termination_by structural n => n

/-- annots over the elements of a child list. -/
def annotsList : List Node → List Nat
  | [] => []
  | x :: xs => annots x ++ annotsList xs
  termination_by structural l => l

/-- annots over an optional child. -/
def annotsOpt : Option Node → List Nat
  | none => []
  | some n => annots n
  termination_by structural o => o

end

mutual

/-- True when no node of the subtree has the out-of-taxonomy kind, i.e.
every node dispatched while walking the subtree is one of the kinds
Walk's switch supports. -/
def noUnknown : Node → Bool
  | .comment _ => true
  | .commentGroup l => noUnknownList l
  | .ident _ => true
  | .basicLit _ => true
  | .field names ftype tag doc fcomment =>
    noUnknownList names && noUnknownOpt ftype && noUnknownOpt tag && noUnknownOpt doc &&
      noUnknownOpt fcomment
  | .fieldList l => noUnknownList l
  | .parenExpr x => noUnknownOpt x
  | .callExpr f args => noUnknownOpt f && noUnknownList args
  | .structType f => noUnknownOpt f
  | .exprStmt x => noUnknownOpt x
  | .blockStmt l => noUnknownList l
  | .typeSpec d n t c =>
    noUnknownOpt d && noUnknownOpt n && noUnknownOpt t && noUnknownOpt c
  | .genDecl d s => noUnknownOpt d && noUnknownList s
  | .unknown => false
  termination_by structural n => n

/-- noUnknown over the elements of a child list. -/
def noUnknownList : List Node → Bool
  | [] => true
  | x :: xs => noUnknown x && noUnknownList xs
  termination_by structural l => l

/-- noUnknown over an optional child. -/
def noUnknownOpt : Option Node → Bool
  | none => true
  | some n => noUnknown n
  termination_by structural o => o

end

/-- Shape of an optional `*ast.BasicLit` slot (Field.Tag): absent or a
basic literal. -/
def isOptLit : Option Node → Bool
  | none => true
  | some (.basicLit _) => true
  | some _ => false

/-- Shape of a required `*ast.Ident` slot (TypeSpec.Name): present and an
identifier. -/
def isReqIdent : Option Node → Bool
  | some (.ident _) => true
  | _ => false

mutual

/-- Conformance of a tree to the data model that Go's static struct types
enforce on go/ast values: every child list holds elements of the list's
declared element type, every single slot holds a node of the slot's
declared family, slots that are never nil in a parsed tree (Field.Type,
ParenExpr.X, CallExpr.Fun, StructType.Fields, ExprStmt.X, TypeSpec.Name,
TypeSpec.Type) are present, and a GenDecl has at least one Spec.  The
out-of-taxonomy kind `unknown` never occurs in a conforming tree. -/
def wf : Node → Bool
  | .comment _ => true
  | .commentGroup l => wfCommentL l
  | .ident _ => true
  | .basicLit _ => true
  | .field names ftype tag doc fcomment =>
    wfIdentL names && wfReqExpr ftype && isOptLit tag && wfOptCG doc && wfOptCG fcomment
  | .fieldList l => wfFieldL l
  | .parenExpr x => wfReqExpr x
  | .callExpr f args => wfReqExpr f && wfExprL args
  | .structType f => wfReqFieldList f
  | .exprStmt x => wfReqExpr x
  | .blockStmt l => wfStmtL l
  | .typeSpec d n t c => wfOptCG d && isReqIdent n && wfReqExpr t && wfOptCG c
  | .genDecl d s => wfOptCG d && wfSpecL s && !s.isEmpty
  | .unknown => false
  termination_by structural n => n

/-- wf for a required expression slot: present, of the expression family,
and itself conforming. -/
def wfReqExpr : Option Node → Bool
  | some e => isExpr e && wf e
  | none => false
  termination_by structural o => o

/-- wf for an optional `*ast.CommentGroup` slot: absent or a conforming
comment group. -/
def wfOptCG : Option Node → Bool
  | none => true
  | some (.commentGroup dl) => wfCommentL dl
  | some _ => false

/-- wf for a required `*ast.FieldList` slot (StructType.Fields). -/
def wfReqFieldList : Option Node → Bool
  | some (.fieldList fl) => wfFieldL fl
  | _ => false
  termination_by structural o => o

/-- wf for a `[]*ast.Ident` list: idents only. -/
def wfIdentL : List Node → Bool
  | [] => true
  | .ident _ :: xs => wfIdentL xs
  | _ :: _ => false
  termination_by structural l => l

/-- wf for a `[]*ast.Comment` list: comments only. -/
def wfCommentL : List Node → Bool
  | [] => true
  | .comment _ :: xs => wfCommentL xs
  | _ :: _ => false
  termination_by structural l => l

/-- wf for a `[]*ast.Field` list: fields only, each conforming. -/
def wfFieldL : List Node → Bool
  | [] => true
  | .field a b c d e :: xs => wf (.field a b c d e) && wfFieldL xs
  | _ :: _ => false
  termination_by structural l => l

/-- wf for a `[]ast.Expr` list: expression-family nodes only, each conforming. -/
def wfExprL : List Node → Bool
  | [] => true
  | x :: xs => isExpr x && wf x && wfExprL xs
  termination_by structural l => l

/-- wf for a `[]ast.Stmt` list: statement-family nodes only, each conforming. -/
def wfStmtL : List Node → Bool
  | [] => true
  | x :: xs => isStmt x && wf x && wfStmtL xs
  termination_by structural l => l

/-- wf for a `[]ast.Spec` list: spec-family nodes only, each conforming. -/
def wfSpecL : List Node → Bool
  | [] => true
  | x :: xs => isSpec x && wf x && wfSpecL xs
  termination_by structural l => l

end

/-- The identity visitor of the spec's identity law: every pre-order call
returns the argument node itself with descend = true (and the discarded
post-order answer is irrelevant). -/
def idVisitor {σ : Type} : Visitor σ := fun s _ => (s, .keep, true)

/-- Visitor that replaces every identifier with an (empty) block statement,
a statement-family node, without descending — a family-mismatched
replacement for any expression slot.  The state counts replacements. -/
def mismatchV : Visitor Nat := fun s o =>
  match o with
  | some (.ident _) => (s + 1, .replace (.blockStmt []), false)
  | _ => (s, .keep, true)

/-- Tracing visitor for observing traversal order: appends 0 for the
post-order `fn(nil)` call, 100+k on visiting ident k, 1 on visiting a
ParenExpr (which it asks to remove, still descending), 2 otherwise. -/
def traceV : Visitor (List Nat) := fun s o =>
  match o with
  | none => (s ++ [0], .keep, true)
  | some (.parenExpr _) => (s ++ [1], .remove, true)
  | some (.ident k) => (s ++ [100 + k], .keep, true)
  | some _ => (s ++ [2], .keep, true)

/-- Visitor that removes every identifier (without descending into it) and
keeps everything else. -/
def rmIdentV {σ : Type} : Visitor σ := fun s o =>
  match o with
  | some (.ident _) => (s, .remove, false)
  | _ => (s, .keep, true)

/-- Visitor that removes every TypeSpec whose name is ident k and keeps
everything else. -/
def rmSpecV (k : Nat) {σ : Type} : Visitor σ := fun s o =>
  match o with
  | some (.typeSpec _ (some (.ident m)) _ _) =>
    if m = k then (s, .remove, false) else (s, .keep, true)
  | _ => (s, .keep, true)

/-- Visitor that removes every comment group and keeps everything else. -/
def rmGroupV {σ : Type} : Visitor σ := fun s o =>
  match o with
  | some (.commentGroup _) => (s, .remove, false)
  | _ => (s, .keep, true)

/-- Visitor that removes every basic literal and keeps everything else. -/
def rmLitV {σ : Type} : Visitor σ := fun s o =>
  match o with
  | some (.basicLit _) => (s, .remove, false)
  | _ => (s, .keep, true)

/-- Smuggling visitor for the annotation-orphan law: removes the field
typed `ident 1` (which carries doc comment 5), and replaces the field
typed `ident 2` by a fresh field that re-attaches comment 5. -/
def smugV {σ : Type} : Visitor σ := fun s o =>
  match o with
  | some (.field _ (some (.ident 1)) _ _ _) => (s, .remove, false)
  | some (.field _ (some (.ident 2)) _ _ _) =>
    (s, .replace (.field [] (some (.ident 3)) none (some (.commentGroup [.comment 5])) none),
      false)
  | _ => (s, .keep, true)

/-- Keep-or-remove visitor that removes the field typed `ident 1` and
keeps everything else, always descending. -/
def rmFieldOneV {σ : Type} : Visitor σ := fun s o =>
  match o with
  | some (.field _ (some (.ident 1)) _ _ _) => (s, .remove, true)
  | _ => (s, .keep, true)

/-- Visitor that replaces every expression statement by `ident 9`
(descending) and removes `ident 1`. -/
def replStmtRmV {σ : Type} : Visitor σ := fun s o =>
  match o with
  | some (.exprStmt _) => (s, .replace (.ident 9), true)
  | some (.ident 1) => (s, .remove, false)
  | _ => (s, .keep, true)

/-- Visitor that replaces every expression statement by `ident 9`
(descending) and keeps everything else. -/
def replStmtV {σ : Type} : Visitor σ := fun s o =>
  match o with
  | some (.exprStmt _) => (s, .replace (.ident 9), true)
  | _ => (s, .keep, true)

/-- Keep-or-remove visitors: the returned node is always the argument
itself or nil, never a third node. -/
def KR {σ : Type} (fn : Visitor σ) : Prop :=
  ∀ s o, (fn s o).2.1 = VisitResult.keep ∨ (fn s o).2.1 = VisitResult.remove

theorem asExpr_eq_some {o : Option Node} {v : Node} (h : asExpr o = some v) : o = some v := by
  unfold asExpr at h
  split at h <;> simp_all

theorem asStmt_eq_some {o : Option Node} {v : Node} (h : asStmt o = some v) : o = some v := by
  unfold asStmt at h
  split at h <;> simp_all

theorem asSpec_eq_some {o : Option Node} {v : Node} (h : asSpec o = some v) : o = some v := by
  unfold asSpec at h
  split at h <;> simp_all

theorem asIdent_eq_some {o : Option Node} {v : Node} (h : asIdent o = some v) : o = some v := by
  unfold asIdent at h
  split at h <;> simp_all

theorem asComment_eq_some {o : Option Node} {v : Node} (h : asComment o = some v) :
    o = some v := by
  unfold asComment at h
  split at h <;> simp_all

theorem asCommentGroup_eq_some {o : Option Node} {v : Node} (h : asCommentGroup o = some v) :
    o = some v := by
  unfold asCommentGroup at h
  split at h <;> simp_all

theorem asBasicLit_eq_some {o : Option Node} {v : Node} (h : asBasicLit o = some v) :
    o = some v := by
  unfold asBasicLit at h
  split at h <;> simp_all

theorem asField_eq_some {o : Option Node} {v : Node} (h : asField o = some v) : o = some v := by
  unfold asField at h
  split at h <;> simp_all

theorem asFieldList_eq_some {o : Option Node} {v : Node} (h : asFieldList o = some v) :
    o = some v := by
  unfold asFieldList at h
  split at h <;> simp_all

theorem sizeOf_node_pos (n : Node) : 0 < sizeOf n := by
  cases n <;> simp_arith

theorem walk_id_step {σ : Type} (st : σ) (n : Node)
    (h : walkChildren (idVisitor (σ := σ)) st n = .ok (st, some n)) :
    walk idVisitor st n = .ok (st, some n) := by
  rw [walk]
  simp [idVisitor, h, applyRes]

theorem walkList_id {σ : Type} (keepF : Option Node → Option Node) (l : List Node)
    (hel : ∀ x ∈ l, ∀ st : σ, walk idVisitor st x = .ok (st, some x))
    (hkeep : ∀ x ∈ l, keepF (some x) = some x) (st : σ) :
    walkList idVisitor keepF st l = .ok (st, l) := by
  induction l generalizing st with
  | nil => rw [walkList]
  | cons x rest ih =>
    have hx := hel x (by simp) st
    have hrest := ih (fun y hy st2 => hel y (by simp [hy]) st2)
      (fun y hy => hkeep y (by simp [hy]))
    rw [walkList]
    simp only [hx, hrest, hkeep x (by simp)]

theorem wfCommentL_elem {l : List Node} :
    wfCommentL l = true → ∀ x ∈ l, wf x = true ∧ asComment (some x) = some x := by
  induction l with
  | nil => intro h; simp
  | cons z rest ih =>
    intro h
    intro y hy
    rcases List.mem_cons.mp hy with hEq | hMem
    · rw [hEq]
      cases z <;> simp_all [wfCommentL, wf, asComment]
    · refine ih ?_ y hMem
      cases z <;> simp_all [wfCommentL]

theorem wfIdentL_elem {l : List Node} :
    wfIdentL l = true → ∀ x ∈ l, wf x = true ∧ asIdent (some x) = some x := by
  induction l with
  | nil => intro h; simp
  | cons z rest ih =>
    intro h
    intro y hy
    rcases List.mem_cons.mp hy with hEq | hMem
    · rw [hEq]
      cases z <;> simp_all [wfIdentL, wf, asIdent]
    · refine ih ?_ y hMem
      cases z <;> simp_all [wfIdentL]

theorem wfFieldL_elem {l : List Node} :
    wfFieldL l = true → ∀ x ∈ l, wf x = true ∧ asField (some x) = some x := by
  induction l with
  | nil => intro h; simp
  | cons z rest ih =>
    intro h
    intro y hy
    rcases List.mem_cons.mp hy with hEq | hMem
    · rw [hEq]
      cases z <;> simp_all [wfFieldL, asField]
    · refine ih ?_ y hMem
      cases z <;> simp_all [wfFieldL]

theorem wfExprL_elem {l : List Node} :
    wfExprL l = true → ∀ x ∈ l, wf x = true ∧ asExpr (some x) = some x := by
  induction l with
  | nil => intro h; simp
  | cons z rest ih =>
    intro h
    rw [wfExprL] at h
    simp only [Bool.and_eq_true] at h
    intro y hy
    rcases List.mem_cons.mp hy with hEq | hMem
    · rw [hEq]
      exact ⟨h.1.2, by simp [asExpr, h.1.1]⟩
    · exact ih h.2 y hMem

theorem wfStmtL_elem {l : List Node} :
    wfStmtL l = true → ∀ x ∈ l, wf x = true ∧ asStmt (some x) = some x := by
  induction l with
  | nil => intro h; simp
  | cons z rest ih =>
    intro h
    rw [wfStmtL] at h
    simp only [Bool.and_eq_true] at h
    intro y hy
    rcases List.mem_cons.mp hy with hEq | hMem
    · rw [hEq]
      exact ⟨h.1.2, by simp [asStmt, h.1.1]⟩
    · exact ih h.2 y hMem

theorem wfSpecL_elem {l : List Node} :
    wfSpecL l = true → ∀ x ∈ l, wf x = true ∧ asSpec (some x) = some x := by
  induction l with
  | nil => intro h; simp
  | cons z rest ih =>
    intro h
    rw [wfSpecL] at h
    simp only [Bool.and_eq_true] at h
    intro y hy
    rcases List.mem_cons.mp hy with hEq | hMem
    · rw [hEq]
      exact ⟨h.1.2, by simp [asSpec, h.1.1]⟩
    · exact ih h.2 y hMem

set_option maxHeartbeats 1600000 in
theorem walk_id_aux {σ : Type} :
    ∀ (k : Nat) (n : Node), sizeOf n ≤ k → wf n = true → ∀ st : σ,
      walk idVisitor st n = .ok (st, some n) := by
  intro k
  induction k with
  | zero =>
    intro n hk
    exact absurd hk (by have := sizeOf_node_pos n; omega)
  | succ k ih =>
    intro n hk hwf st
    apply walk_id_step
    cases n with
    | comment t => rw [walkChildren]
    | ident v => rw [walkChildren]
    | basicLit v => rw [walkChildren]
    | unknown => simp [wf] at hwf
    | commentGroup l =>
      simp only [wf] at hwf
      have hel := wfCommentL_elem hwf
      have hb : ∀ x ∈ l, sizeOf x ≤ k := by
        intro x hx
        have h1 := List.sizeOf_lt_of_mem hx
        simp_arith at hk
        omega
      have hlist : walkList idVisitor asComment st l = .ok (st, l) :=
        walkList_id _ _ (fun x hx st2 => ih x (hb x hx) (hel x hx).1 st2)
          (fun x hx => (hel x hx).2) st
      rw [walkChildren]
      simp only [hlist]
    | field names ftype tag doc fcomment =>
      simp only [wf, Bool.and_eq_true] at hwf
      obtain ⟨⟨⟨⟨hnames, hftype⟩, htag⟩, hdoc⟩, hcom⟩ := hwf
      have helN := wfIdentL_elem hnames
      have hbN : ∀ x ∈ names, sizeOf x ≤ k := by
        intro x hx
        have h1 := List.sizeOf_lt_of_mem hx
        simp_arith at hk
        omega
      have hlist : walkList idVisitor asIdent st names = .ok (st, names) :=
        walkList_id _ _ (fun x hx st2 => ih x (hbN x hx) (helN x hx).1 st2)
          (fun x hx => (helN x hx).2) st
      rcases ftype with _ | e
      · simp [wfReqExpr] at hftype
      simp only [wfReqExpr, Bool.and_eq_true] at hftype
      have hT : walk idVisitor st e = .ok (st, some e) := by
        apply ih e (by simp_arith at hk ⊢; omega) hftype.2
      have hTag : ∀ st2 : σ, walkOpt idVisitor st2 tag = .ok (st2, tag) ∧
          asBasicLit tag = tag := by
        intro st2
        rcases tag with _ | tg
        · simp [walkOpt, asBasicLit]
        · cases tg <;> simp [isOptLit] at htag
          constructor
          · rw [walkOpt]
            apply ih _ (by simp_arith at hk ⊢; omega) (by simp [wf])
          · simp [asBasicLit]
      have hDoc : ∀ st2 : σ, walkOpt idVisitor st2 doc = .ok (st2, doc) ∧
          asCommentGroup doc = doc := by
        intro st2
        rcases doc with _ | dg
        · simp [walkOpt, asCommentGroup]
        · cases dg <;> simp [wfOptCG] at hdoc
          constructor
          · rw [walkOpt]
            apply ih _ (by simp_arith at hk ⊢; omega) (by simp [wf, hdoc])
          · simp [asCommentGroup]
      have hCom : ∀ st2 : σ, walkOpt idVisitor st2 fcomment = .ok (st2, fcomment) ∧
          asCommentGroup fcomment = fcomment := by
        intro st2
        rcases fcomment with _ | cg
        · simp [walkOpt, asCommentGroup]
        · cases cg <;> simp [wfOptCG] at hcom
          constructor
          · rw [walkOpt]
            apply ih _ (by simp_arith at hk ⊢; omega) (by simp [wf, hcom])
          · simp [asCommentGroup]
      rw [walkChildren]
      simp only [hlist, walkOpt, hT, asExpr, hftype.1, if_true,
        (hTag st).1, (hTag st).2, (hDoc st).1, (hDoc st).2, (hCom st).1, (hCom st).2]
    | fieldList l =>
      simp only [wf] at hwf
      rcases l with _ | ⟨f0, rest⟩
      · rw [walkChildren]
        simp
      · have hel := wfFieldL_elem hwf
        have hb : ∀ x ∈ f0 :: rest, sizeOf x ≤ k := by
          intro x hx
          have h1 := List.sizeOf_lt_of_mem hx
          simp_arith at hk h1
          omega
        have hlist : walkList idVisitor asField st (f0 :: rest) = .ok (st, f0 :: rest) :=
          walkList_id _ _ (fun x hx st2 => ih x (hb x hx) (hel x hx).1 st2)
            (fun x hx => (hel x hx).2) st
        rw [walkChildren]
        simp [hlist]
    | parenExpr x =>
      simp only [wf] at hwf
      rcases x with _ | e
      · simp [wfReqExpr] at hwf
      simp only [wfReqExpr, Bool.and_eq_true] at hwf
      have hT : walk idVisitor st e = .ok (st, some e) := by
        apply ih e (by simp_arith at hk ⊢; omega) hwf.2
      rw [walkChildren]
      simp only [walkOpt, hT, asExpr, hwf.1, if_true]
    | callExpr func args =>
      simp only [wf, Bool.and_eq_true] at hwf
      obtain ⟨hfe, hargs⟩ := hwf
      rcases func with _ | e
      · simp [wfReqExpr] at hfe
      simp only [wfReqExpr, Bool.and_eq_true] at hfe
      have hT : walk idVisitor st e = .ok (st, some e) := by
        apply ih e (by simp_arith at hk ⊢; omega) hfe.2
      have helA := wfExprL_elem hargs
      have hbA : ∀ x ∈ args, sizeOf x ≤ k := by
        intro x hx
        have h1 := List.sizeOf_lt_of_mem hx
        simp_arith at hk
        omega
      have hlist : ∀ st2 : σ, walkList idVisitor asExpr st2 args = .ok (st2, args) :=
        fun st2 => walkList_id _ _ (fun x hx st3 => ih x (hbA x hx) (helA x hx).1 st3)
          (fun x hx => (helA x hx).2) st2
      rw [walkChildren]
      simp only [walkOpt, hT, asExpr, hfe.1, if_true, hlist]
    | structType fields =>
      simp only [wf] at hwf
      rcases fields with _ | fl
      · simp [wfReqFieldList] at hwf
      · cases fl <;> simp [wfReqFieldList] at hwf
        case fieldList l =>
          have hT : walk idVisitor st (.fieldList l) = .ok (st, some (.fieldList l)) := by
            apply ih _ (by simp_arith at hk ⊢; omega) (by simp [wf, hwf])
          rw [walkChildren]
          simp only [walkOpt, hT, asFieldList]
    | exprStmt x =>
      simp only [wf] at hwf
      rcases x with _ | e
      · simp [wfReqExpr] at hwf
      simp only [wfReqExpr, Bool.and_eq_true] at hwf
      have hT : walk idVisitor st e = .ok (st, some e) := by
        apply ih e (by simp_arith at hk ⊢; omega) hwf.2
      rw [walkChildren]
      simp only [walkOpt, hT, asExpr, hwf.1, if_true]
    | blockStmt l =>
      simp only [wf] at hwf
      have hel := wfStmtL_elem hwf
      have hb : ∀ x ∈ l, sizeOf x ≤ k := by
        intro x hx
        have h1 := List.sizeOf_lt_of_mem hx
        simp_arith at hk
        omega
      have hlist : walkList idVisitor asStmt st l = .ok (st, l) :=
        walkList_id _ _ (fun x hx st2 => ih x (hb x hx) (hel x hx).1 st2)
          (fun x hx => (hel x hx).2) st
      rw [walkChildren]
      simp only [hlist]
    | typeSpec doc name ttype tcomment =>
      simp only [wf, Bool.and_eq_true] at hwf
      obtain ⟨⟨⟨hdoc, hname⟩, httype⟩, hcom⟩ := hwf
      rcases name with _ | nm
      · simp [isReqIdent] at hname
      cases nm <;> simp [isReqIdent] at hname
      case ident v =>
      have hN : walk idVisitor st (.ident v) = .ok (st, some (.ident v)) := by
        apply ih _ (by simp_arith at hk ⊢; omega) (by simp [wf])
      rcases ttype with _ | e
      · simp [wfReqExpr] at httype
      simp only [wfReqExpr, Bool.and_eq_true] at httype
      have hT : ∀ st2 : σ, walk idVisitor st2 e = .ok (st2, some e) := by
        intro st2
        apply ih e (by simp_arith at hk ⊢; omega) httype.2
      rcases tcomment with _ | cg
      · rw [walkChildren]
        simp only [walkOpt, hN, hT]
      · cases cg <;> simp [wfOptCG] at hcom
        case commentGroup cl =>
        have hC : ∀ st2 : σ, walk idVisitor st2 (.commentGroup cl) =
            .ok (st2, some (.commentGroup cl)) := by
          intro st2
          apply ih _ (by simp_arith at hk ⊢; omega) (by simp [wf, hcom])
        rw [walkChildren]
        simp only [walkOpt, hN, hT, hC, asCommentGroup]
    | genDecl doc specs =>
      simp only [wf, Bool.and_eq_true] at hwf
      obtain ⟨⟨hdoc, hspecs⟩, hne⟩ := hwf
      have helS := wfSpecL_elem hspecs
      have hbS : ∀ x ∈ specs, sizeOf x ≤ k := by
        intro x hx
        have h1 := List.sizeOf_lt_of_mem hx
        simp_arith at hk
        omega
      have hlist : walkList idVisitor asSpec st specs = .ok (st, specs) :=
        walkList_id _ _ (fun x hx st2 => ih x (hbS x hx) (helS x hx).1 st2)
          (fun x hx => (helS x hx).2) st
      simp only [Bool.not_eq_true', List.isEmpty_eq_false] at hne
      rcases doc with _ | dg
      · rw [walkChildren]
        simp [hlist, hne]
      · cases dg <;> simp [wfOptCG] at hdoc
        case commentGroup dl =>
        have hD : walk idVisitor st (.commentGroup dl) = .ok (st, some (.commentGroup dl)) := by
          apply ih _ (by simp_arith at hk ⊢; omega) (by simp [wf, hdoc])
        rw [walkChildren]
        simp [hlist, hne, hD, asCommentGroup]

theorem walkList_append {σ : Type} (fn : Visitor σ) (keepF : Option Node → Option Node) :
    ∀ (l1 l2 : List Node) (st : σ),
      walkList fn keepF st (l1 ++ l2) =
        (match walkList fn keepF st l1 with
        | .error e => .error e
        | .ok (st1, o1) =>
          match walkList fn keepF st1 l2 with
          | .error e => .error e
          | .ok (st2, o2) => .ok (st2, o1 ++ o2)) := by
  intro l1
  induction l1 with
  | nil =>
    intro l2 st
    rw [List.nil_append]
    conv_rhs => rw [walkList]
    cases h : walkList fn keepF st l2 with
    | error e => simp [h]
    | ok p => simp [h]
  | cons x rest ih =>
    intro l2 st
    rw [List.cons_append, walkList]
    conv_rhs => rw [walkList]
    cases hx : walk fn st x with
    | error e => simp
    | ok p =>
      obtain ⟨st1, r⟩ := p
      simp only []
      rw [ih l2 st1]
      cases h1 : walkList fn keepF st1 rest with
      | error e => simp
      | ok q =>
        obtain ⟨st2, o1⟩ := q
        cases h2 : walkList fn keepF st2 l2 with
        | error e =>
          simp only []
          cases hk : keepF r <;> simp [h2]
        | ok w =>
          obtain ⟨st3, o2⟩ := w
          simp only []
          cases hk : keepF r <;> simp [h2]

theorem walkList_mem {σ : Type} (fn : Visitor σ) (keepF : Option Node → Option Node)
    (p : Node → Bool) (hkp : ∀ o v, keepF o = some v → p v = true) :
    ∀ (l : List Node) (st st' : σ) (out : List Node),
      walkList fn keepF st l = .ok (st', out) → ∀ e ∈ out, p e = true := by
  intro l
  induction l with
  | nil =>
    intro st st' out h
    rw [walkList] at h
    simp at h
    simp [h.2]
  | cons x rest ih =>
    intro st st' out h
    rw [walkList] at h
    cases hx : walk fn st x with
    | error e => simp [hx] at h
    | ok pr =>
      obtain ⟨st1, r⟩ := pr
      rw [hx] at h
      simp only [] at h
      cases h1 : walkList fn keepF st1 rest with
      | error e => simp [h1] at h
      | ok q =>
        obtain ⟨st2, out1⟩ := q
        rw [h1] at h
        simp only [] at h
        cases hk : keepF r with
        | some v =>
          rw [hk] at h
          simp only [Except.ok.injEq, Prod.mk.injEq] at h
          intro e he
          rw [← h.2] at he
          rcases List.mem_cons.mp he with hEq | hMem
          · rw [hEq]
            exact hkp r v hk
          · exact ih st1 st2 out1 h1 e hMem
        | none =>
          rw [hk] at h
          simp only [Except.ok.injEq, Prod.mk.injEq] at h
          intro e he
          rw [← h.2] at he
          exact ih st1 st2 out1 h1 e he

theorem noUnknownList_elem {l : List Node} :
    noUnknownList l = true → ∀ x ∈ l, noUnknown x = true := by
  induction l with
  | nil => intro h; simp
  | cons z rest ih =>
    intro h
    rw [noUnknownList, Bool.and_eq_true] at h
    intro y hy
    rcases List.mem_cons.mp hy with hEq | hMem
    · rw [hEq]; exact h.1
    · exact ih h.2 y hMem

theorem walkOpt_err {σ : Type} {fn : Visitor σ} {o : Option Node}
    (IH : ∀ x, o = some x → ∀ (st : σ) (e : Err), walk fn st x = .error e → e = .assertFailed) :
    ∀ (st : σ) (e : Err), walkOpt fn st o = .error e → e = .assertFailed := by
  intro st e h
  cases o with
  | none => rw [walkOpt] at h; exact absurd h (by simp)
  | some c => rw [walkOpt] at h; exact IH c rfl st e h

theorem walkList_err {σ : Type} {fn : Visitor σ} {keepF : Option Node → Option Node} :
    ∀ {l : List Node},
      (∀ x ∈ l, ∀ (st : σ) (e : Err), walk fn st x = .error e → e = .assertFailed) →
      ∀ (st : σ) (e : Err), walkList fn keepF st l = .error e → e = .assertFailed := by
  intro l
  induction l with
  | nil => intro _ st e h; rw [walkList] at h; exact absurd h (by simp)
  | cons x rest ih =>
    intro IH st e h
    rw [walkList] at h
    cases hx : walk fn st x with
    | error eA =>
      rw [hx] at h
      simp only [Except.error.injEq] at h
      rw [← h]
      exact IH x (by simp) st eA hx
    | ok pr =>
      obtain ⟨st1, r⟩ := pr
      rw [hx] at h
      simp only [] at h
      cases h1 : walkList fn keepF st1 rest with
      | error eB =>
        rw [h1] at h
        simp only [Except.error.injEq] at h
        rw [← h]
        exact ih (fun y hy => IH y (by simp [hy])) st1 eB h1
      | ok q =>
        obtain ⟨st2, out1⟩ := q
        rw [h1] at h
        simp only [] at h
        cases hkk : keepF r <;> rw [hkk] at h <;> exact absurd h (by simp)

set_option maxHeartbeats 1600000 in
theorem walk_noUnk_aux {σ : Type} (fn : Visitor σ) :
    ∀ (k : Nat) (n : Node), sizeOf n ≤ k → noUnknown n = true →
      ∀ (st : σ) (e : Err), walk fn st n = .error e → e = .assertFailed := by
  intro k
  induction k with
  | zero =>
    intro n hk
    exact absurd hk (by have := sizeOf_node_pos n; omega)
  | succ k ih =>
    intro n hk hnu st e hw
    have hch : ∀ (st2 : σ) (e2 : Err), walkChildren fn st2 n = .error e2 →
        e2 = .assertFailed := by
      cases n with
      | comment t =>
        intro st2 e2 hw2
        rw [walkChildren] at hw2
        exact absurd hw2 (by simp)
      | ident v =>
        intro st2 e2 hw2
        rw [walkChildren] at hw2
        exact absurd hw2 (by simp)
      | basicLit v =>
        intro st2 e2 hw2
        rw [walkChildren] at hw2
        exact absurd hw2 (by simp)
      | unknown => simp [noUnknown] at hnu
      | commentGroup l =>
        simp only [noUnknown] at hnu
        intro st2 e2 hw2
        rw [walkChildren] at hw2
        cases hA : walkList fn asComment st2 l with
        | error eA =>
          rw [hA] at hw2
          simp only [Except.error.injEq] at hw2
          rw [← hw2]
          exact walkList_err (fun x hx st3 e3 h3 => ih x
            (by have h1 := List.sizeOf_lt_of_mem hx; simp_arith at hk; omega)
            (noUnknownList_elem hnu x hx) st3 e3 h3) st2 eA hA
        | ok pr =>
          obtain ⟨st1, out⟩ := pr
          rw [hA] at hw2
          exact absurd hw2 (by simp)
      | field names ftype tag doc fcomment =>
        simp only [noUnknown, Bool.and_eq_true] at hnu
        obtain ⟨⟨⟨⟨hq1, hq2⟩, hq3⟩, hq4⟩, hq5⟩ := hnu
        intro st2 e2 hw2
        rw [walkChildren] at hw2
        have IHnames : ∀ x ∈ names, ∀ (st3 : σ) (e3 : Err),
            walk fn st3 x = .error e3 → e3 = .assertFailed :=
          fun x hx st3 e3 h3 => ih x
            (by have h1 := List.sizeOf_lt_of_mem hx; simp_arith at hk; omega)
            (noUnknownList_elem hq1 x hx) st3 e3 h3
        have IHft : ∀ x, ftype = some x → ∀ (st3 : σ) (e3 : Err),
            walk fn st3 x = .error e3 → e3 = .assertFailed := by
          intro x hfx st3 e3 h3
          refine ih x ?_ ?_ st3 e3 h3
          · subst hfx; simp_arith at hk; omega
          · subst hfx; simpa [noUnknownOpt] using hq2
        have IHtag : ∀ x, tag = some x → ∀ (st3 : σ) (e3 : Err),
            walk fn st3 x = .error e3 → e3 = .assertFailed := by
          intro x hfx st3 e3 h3
          refine ih x ?_ ?_ st3 e3 h3
          · subst hfx; simp_arith at hk; omega
          · subst hfx; simpa [noUnknownOpt] using hq3
        have IHdoc : ∀ x, doc = some x → ∀ (st3 : σ) (e3 : Err),
            walk fn st3 x = .error e3 → e3 = .assertFailed := by
          intro x hfx st3 e3 h3
          refine ih x ?_ ?_ st3 e3 h3
          · subst hfx; simp_arith at hk; omega
          · subst hfx; simpa [noUnknownOpt] using hq4
        have IHcom : ∀ x, fcomment = some x → ∀ (st3 : σ) (e3 : Err),
            walk fn st3 x = .error e3 → e3 = .assertFailed := by
          intro x hfx st3 e3 h3
          refine ih x ?_ ?_ st3 e3 h3
          · subst hfx; simp_arith at hk; omega
          · subst hfx; simpa [noUnknownOpt] using hq5
        cases hA : walkList fn asIdent st2 names with
        | error eA =>
          rw [hA] at hw2
          simp only [Except.error.injEq] at hw2
          rw [← hw2]
          exact walkList_err IHnames st2 eA hA
        | ok pr =>
        obtain ⟨st3, names1⟩ := pr
        rw [hA] at hw2
        simp only [] at hw2
        cases hB : walkOpt fn st3 ftype with
        | error eB =>
          rw [hB] at hw2
          simp only [Except.error.injEq] at hw2
          rw [← hw2]
          exact walkOpt_err IHft st3 eB hB
        | ok pr2 =>
        obtain ⟨st4, tr⟩ := pr2
        rw [hB] at hw2
        simp only [] at hw2
        cases hE : asExpr tr with
        | none =>
          rw [hE] at hw2
          exact absurd hw2 (by simp)
        | some t =>
        rw [hE] at hw2
        simp only [] at hw2
        cases hC : walkOpt fn st4 tag with
        | error eC =>
          rw [hC] at hw2
          simp only [Except.error.injEq] at hw2
          rw [← hw2]
          exact walkOpt_err IHtag st4 eC hC
        | ok pr3 =>
        obtain ⟨st5, tagR⟩ := pr3
        rw [hC] at hw2
        simp only [] at hw2
        cases hD : walkOpt fn st5 doc with
        | error eD =>
          rw [hD] at hw2
          simp only [Except.error.injEq] at hw2
          rw [← hw2]
          exact walkOpt_err IHdoc st5 eD hD
        | ok pr4 =>
        obtain ⟨st6, docR⟩ := pr4
        rw [hD] at hw2
        simp only [] at hw2
        cases hF : walkOpt fn st6 fcomment with
        | error eF =>
          rw [hF] at hw2
          simp only [Except.error.injEq] at hw2
          rw [← hw2]
          exact walkOpt_err IHcom st6 eF hF
        | ok pr5 =>
          obtain ⟨st7, comR⟩ := pr5
          rw [hF] at hw2
          exact absurd hw2 (by simp)
      | fieldList l =>
        simp only [noUnknown] at hnu
        intro st2 e2 hw2
        rw [walkChildren] at hw2
        rcases hemp : l.isEmpty with _ | _
        · rw [hemp] at hw2
          simp only [Bool.false_eq_true, if_false] at hw2
          cases hA : walkList fn asField st2 l with
          | error eA =>
            rw [hA] at hw2
            simp only [Except.error.injEq] at hw2
            rw [← hw2]
            exact walkList_err (fun x hx st3 e3 h3 => ih x
              (by have h1 := List.sizeOf_lt_of_mem hx; simp_arith at hk; omega)
              (noUnknownList_elem hnu x hx) st3 e3 h3) st2 eA hA
          | ok pr =>
            obtain ⟨st3, out⟩ := pr
            rw [hA] at hw2
            simp only [] at hw2
            cases hoe : out.isEmpty <;> rw [hoe] at hw2 <;> exact absurd hw2 (by simp)
        · rw [hemp] at hw2
          exact absurd hw2 (by simp)
      | parenExpr x =>
        simp only [noUnknown] at hnu
        intro st2 e2 hw2
        rw [walkChildren] at hw2
        have IHx : ∀ c, x = some c → ∀ (st3 : σ) (e3 : Err),
            walk fn st3 c = .error e3 → e3 = .assertFailed := by
          intro c hfx st3 e3 h3
          refine ih c ?_ ?_ st3 e3 h3
          · subst hfx; simp_arith at hk; omega
          · subst hfx; simpa [noUnknownOpt] using hnu
        cases hA : walkOpt fn st2 x with
        | error eA =>
          rw [hA] at hw2
          simp only [Except.error.injEq] at hw2
          rw [← hw2]
          exact walkOpt_err IHx st2 eA hA
        | ok pr =>
          obtain ⟨st3, xr⟩ := pr
          rw [hA] at hw2
          simp only [] at hw2
          cases hE : asExpr xr with
          | some t =>
            rw [hE] at hw2
            exact absurd hw2 (by simp)
          | none =>
            rw [hE] at hw2
            simp only [Except.error.injEq] at hw2
            exact hw2.symm
      | callExpr func args =>
        simp only [noUnknown, Bool.and_eq_true] at hnu
        obtain ⟨hq1, hq2⟩ := hnu
        intro st2 e2 hw2
        rw [walkChildren] at hw2
        have IHf : ∀ c, func = some c → ∀ (st3 : σ) (e3 : Err),
            walk fn st3 c = .error e3 → e3 = .assertFailed := by
          intro c hfx st3 e3 h3
          refine ih c ?_ ?_ st3 e3 h3
          · subst hfx; simp_arith at hk; omega
          · subst hfx; simpa [noUnknownOpt] using hq1
        cases hA : walkOpt fn st2 func with
        | error eA =>
          rw [hA] at hw2
          simp only [Except.error.injEq] at hw2
          rw [← hw2]
          exact walkOpt_err IHf st2 eA hA
        | ok pr =>
        obtain ⟨st3, fr⟩ := pr
        rw [hA] at hw2
        simp only [] at hw2
        cases hE : asExpr fr with
        | none =>
          rw [hE] at hw2
          exact absurd hw2 (by simp)
        | some f =>
        rw [hE] at hw2
        simp only [] at hw2
        cases hB : walkList fn asExpr st3 args with
        | error eB =>
          rw [hB] at hw2
          simp only [Except.error.injEq] at hw2
          rw [← hw2]
          exact walkList_err (fun y hy st4 e4 h4 => ih y
            (by have h1 := List.sizeOf_lt_of_mem hy; simp_arith at hk; omega)
            (noUnknownList_elem hq2 y hy) st4 e4 h4) st3 eB hB
        | ok pr2 =>
          obtain ⟨st4, args1⟩ := pr2
          rw [hB] at hw2
          exact absurd hw2 (by simp)
      | structType fields =>
        simp only [noUnknown] at hnu
        intro st2 e2 hw2
        rw [walkChildren] at hw2
        have IHx : ∀ c, fields = some c → ∀ (st3 : σ) (e3 : Err),
            walk fn st3 c = .error e3 → e3 = .assertFailed := by
          intro c hfx st3 e3 h3
          refine ih c ?_ ?_ st3 e3 h3
          · subst hfx; simp_arith at hk; omega
          · subst hfx; simpa [noUnknownOpt] using hnu
        cases hA : walkOpt fn st2 fields with
        | error eA =>
          rw [hA] at hw2
          simp only [Except.error.injEq] at hw2
          rw [← hw2]
          exact walkOpt_err IHx st2 eA hA
        | ok pr =>
          obtain ⟨st3, flr⟩ := pr
          rw [hA] at hw2
          simp only [] at hw2
          cases hE : asFieldList flr with
          | none =>
            rw [hE] at hw2
            exact absurd hw2 (by simp)
          | some fl =>
            rw [hE] at hw2
            exact absurd hw2 (by simp)
      | exprStmt x =>
        simp only [noUnknown] at hnu
        intro st2 e2 hw2
        rw [walkChildren] at hw2
        have IHx : ∀ c, x = some c → ∀ (st3 : σ) (e3 : Err),
            walk fn st3 c = .error e3 → e3 = .assertFailed := by
          intro c hfx st3 e3 h3
          refine ih c ?_ ?_ st3 e3 h3
          · subst hfx; simp_arith at hk; omega
          · subst hfx; simpa [noUnknownOpt] using hnu
        cases hA : walkOpt fn st2 x with
        | error eA =>
          rw [hA] at hw2
          simp only [Except.error.injEq] at hw2
          rw [← hw2]
          exact walkOpt_err IHx st2 eA hA
        | ok pr =>
          obtain ⟨st3, xr⟩ := pr
          rw [hA] at hw2
          simp only [] at hw2
          cases hE : asExpr xr with
          | none =>
            rw [hE] at hw2
            exact absurd hw2 (by simp)
          | some t =>
            rw [hE] at hw2
            exact absurd hw2 (by simp)
      | blockStmt l =>
        simp only [noUnknown] at hnu
        intro st2 e2 hw2
        rw [walkChildren] at hw2
        cases hA : walkList fn asStmt st2 l with
        | error eA =>
          rw [hA] at hw2
          simp only [Except.error.injEq] at hw2
          rw [← hw2]
          exact walkList_err (fun x hx st3 e3 h3 => ih x
            (by have h1 := List.sizeOf_lt_of_mem hx; simp_arith at hk; omega)
            (noUnknownList_elem hnu x hx) st3 e3 h3) st2 eA hA
        | ok pr =>
          obtain ⟨st1, out⟩ := pr
          rw [hA] at hw2
          exact absurd hw2 (by simp)
      | typeSpec doc name ttype tcomment =>
        simp only [noUnknown, Bool.and_eq_true] at hnu
        obtain ⟨⟨⟨hq1, hq2⟩, hq3⟩, hq4⟩ := hnu
        intro st2 e2 hw2
        have IHnm : ∀ c, name = some c → ∀ (st3 : σ) (e3 : Err),
            walk fn st3 c = .error e3 → e3 = .assertFailed := by
          intro c hfx st3 e3 h3
          refine ih c ?_ ?_ st3 e3 h3
          · subst hfx; simp_arith at hk; omega
          · subst hfx; simpa [noUnknownOpt] using hq2
        have IHtt : ∀ c, ttype = some c → ∀ (st3 : σ) (e3 : Err),
            walk fn st3 c = .error e3 → e3 = .assertFailed := by
          intro c hfx st3 e3 h3
          refine ih c ?_ ?_ st3 e3 h3
          · subst hfx; simp_arith at hk; omega
          · subst hfx; simpa [noUnknownOpt] using hq3
        rcases tcomment with _ | c
        · rw [walkChildren] at hw2
          cases hA : walkOpt fn st2 name with
          | error eA =>
            rw [hA] at hw2
            simp only [Except.error.injEq] at hw2
            rw [← hw2]
            exact walkOpt_err IHnm st2 eA hA
          | ok pr =>
            obtain ⟨st3, nr⟩ := pr
            rw [hA] at hw2
            simp only [] at hw2
            cases hB : walkOpt fn st3 ttype with
            | error eB =>
              rw [hB] at hw2
              simp only [Except.error.injEq] at hw2
              rw [← hw2]
              exact walkOpt_err IHtt st3 eB hB
            | ok pr2 =>
              obtain ⟨st4, tr⟩ := pr2
              rw [hB] at hw2
              exact absurd hw2 (by simp)
        · rw [walkChildren] at hw2
          cases hA : walkOpt fn st2 name with
          | error eA =>
            rw [hA] at hw2
            simp only [Except.error.injEq] at hw2
            rw [← hw2]
            exact walkOpt_err IHnm st2 eA hA
          | ok pr =>
          obtain ⟨st3, nr⟩ := pr
          rw [hA] at hw2
          simp only [] at hw2
          cases hB : walkOpt fn st3 ttype with
          | error eB =>
            rw [hB] at hw2
            simp only [Except.error.injEq] at hw2
            rw [← hw2]
            exact walkOpt_err IHtt st3 eB hB
          | ok pr2 =>
          obtain ⟨st4, tr⟩ := pr2
          rw [hB] at hw2
          simp only [] at hw2
          cases hC : walk fn st4 c with
          | error eC =>
            rw [hC] at hw2
            simp only [Except.error.injEq] at hw2
            rw [← hw2]
            refine ih c ?_ ?_ st4 eC hC
            · simp_arith at hk; omega
            · simpa [noUnknownOpt] using hq4
          | ok pr3 =>
            obtain ⟨st5, cr⟩ := pr3
            rw [hC] at hw2
            simp only [] at hw2
            cases hE : asCommentGroup cr with
            | some cg =>
              rw [hE] at hw2
              exact absurd hw2 (by simp)
            | none =>
              rw [hE] at hw2
              simp only [Except.error.injEq] at hw2
              exact hw2.symm
      | genDecl doc specs =>
        simp only [noUnknown, Bool.and_eq_true] at hnu
        obtain ⟨hq1, hq2⟩ := hnu
        intro st2 e2 hw2
        have IHspecs : ∀ x ∈ specs, ∀ (st3 : σ) (e3 : Err),
            walk fn st3 x = .error e3 → e3 = .assertFailed :=
          fun x hx st3 e3 h3 => ih x
            (by have h1 := List.sizeOf_lt_of_mem hx; simp_arith at hk; omega)
            (noUnknownList_elem hq2 x hx) st3 e3 h3
        rcases doc with _ | d
        · rw [walkChildren] at hw2
          cases hA : walkList fn asSpec st2 specs with
          | error eA =>
            rw [hA] at hw2
            simp only [Except.error.injEq] at hw2
            rw [← hw2]
            exact walkList_err IHspecs st2 eA hA
          | ok pr =>
            obtain ⟨st3, specs1⟩ := pr
            rw [hA] at hw2
            simp only [] at hw2
            cases hoe : specs1.isEmpty <;> rw [hoe] at hw2 <;> exact absurd hw2 (by simp)
        · rw [walkChildren] at hw2
          cases hA : walkList fn asSpec st2 specs with
          | error eA =>
            rw [hA] at hw2
            simp only [Except.error.injEq] at hw2
            rw [← hw2]
            exact walkList_err IHspecs st2 eA hA
          | ok pr =>
          obtain ⟨st3, specs1⟩ := pr
          rw [hA] at hw2
          simp only [] at hw2
          cases hemp : specs1.isEmpty with
          | true =>
            rw [hemp] at hw2
            exact absurd hw2 (by simp)
          | false =>
          rw [hemp] at hw2
          simp only [Bool.false_eq_true, if_false] at hw2
          cases hC : walk fn st3 d with
          | error eC =>
            rw [hC] at hw2
            simp only [Except.error.injEq] at hw2
            rw [← hw2]
            refine ih d ?_ ?_ st3 eC hC
            · simp_arith at hk; omega
            · simpa [noUnknownOpt] using hq1
          | ok pr2 =>
            obtain ⟨st4, dr⟩ := pr2
            rw [hC] at hw2
            simp only [] at hw2
            cases hE : asCommentGroup dr with
            | some cg =>
              rw [hE] at hw2
              exact absurd hw2 (by simp)
            | none =>
              rw [hE] at hw2
              simp only [Except.error.injEq] at hw2
              exact hw2.symm
    rw [walk] at hw
    split at hw
    · cases hc : walkChildren fn (fn st (some n)).1 n with
      | error e2 =>
        rw [hc] at hw
        simp only [Except.error.injEq] at hw
        rw [← hw]
        exact hch _ e2 hc
      | ok pr =>
        obtain ⟨st2, o⟩ := pr
        rw [hc] at hw
        cases o <;> exact absurd hw (by simp)
    · exact absurd hw (by simp)

theorem annotsOpt_filter_sub (F : Option Node → Option Node)
    (hF : ∀ o v, F o = some v → o = some v) (o : Option Node) :
    ∀ a ∈ annotsOpt (F o), a ∈ annotsOpt o := by
  cases hFo : F o with
  | none => simp [annotsOpt]
  | some v =>
    rw [hF o v hFo]
    exact fun a ha => ha

theorem walkOpt_sub {σ : Type} {fn : Visitor σ} {o : Option Node}
    (IH : ∀ x, o = some x → ∀ (st st' : σ) (r : Option Node),
      walk fn st x = .ok (st', r) → ∀ a ∈ annotsOpt r, a ∈ annots x) :
    ∀ (st st' : σ) (r : Option Node), walkOpt fn st o = .ok (st', r) →
      ∀ a ∈ annotsOpt r, a ∈ annotsOpt o := by
  intro st st' r h
  cases o with
  | none =>
    rw [walkOpt] at h
    simp only [Except.ok.injEq, Prod.mk.injEq] at h
    rw [← h.2]
    simp [annotsOpt]
  | some c =>
    rw [walkOpt] at h
    simpa [annotsOpt] using IH c rfl st st' r h

theorem walkList_sub {σ : Type} {fn : Visitor σ} {keepF : Option Node → Option Node}
    (hkF : ∀ o v, keepF o = some v → o = some v) :
    ∀ {l : List Node},
      (∀ x ∈ l, ∀ (st st' : σ) (r : Option Node), walk fn st x = .ok (st', r) →
        ∀ a ∈ annotsOpt r, a ∈ annots x) →
      ∀ (st st' : σ) (out : List Node), walkList fn keepF st l = .ok (st', out) →
        ∀ a ∈ annotsList out, a ∈ annotsList l := by
  intro l
  induction l with
  | nil =>
    intro _ st st' out h
    rw [walkList] at h
    simp only [Except.ok.injEq, Prod.mk.injEq] at h
    rw [← h.2]
    simp [annotsList]
  | cons x rest ih =>
    intro IH st st' out h
    rw [walkList] at h
    cases hx : walk fn st x with
    | error e => simp [hx] at h
    | ok pr =>
      obtain ⟨st1, r⟩ := pr
      rw [hx] at h
      simp only [] at h
      cases h1 : walkList fn keepF st1 rest with
      | error e => simp [h1] at h
      | ok q =>
        obtain ⟨st2, out1⟩ := q
        rw [h1] at h
        simp only [] at h
        have hrest : ∀ a ∈ annotsList out1, a ∈ annotsList rest :=
          ih (fun y hy => IH y (by simp [hy])) st1 st2 out1 h1
        cases hk : keepF r with
        | some v =>
          rw [hk] at h
          simp only [Except.ok.injEq, Prod.mk.injEq] at h
          rw [← h.2]
          intro a ha
          rw [annotsList] at ha ⊢
          rcases List.mem_append.mp ha with hv | ho
          · have hr : r = some v := hkF r v hk
            have := IH x (by simp) st st1 r hx a (by rw [hr]; exact hv)
            exact List.mem_append.mpr (Or.inl this)
          · exact List.mem_append.mpr (Or.inr (hrest a ho))
        | none =>
          rw [hk] at h
          simp only [Except.ok.injEq, Prod.mk.injEq] at h
          rw [← h.2]
          intro a ha
          rw [annotsList]
          exact List.mem_append.mpr (Or.inr (hrest a ha))

set_option maxHeartbeats 1600000 in
theorem walk_annots_aux {σ : Type} (fn : Visitor σ) (hKR : KR fn) :
    ∀ (k : Nat) (n : Node), sizeOf n ≤ k →
      ∀ (st st' : σ) (r : Option Node), walk fn st n = .ok (st', r) →
        ∀ a ∈ annotsOpt r, a ∈ annots n := by
  intro k
  induction k with
  | zero =>
    intro n hk
    exact absurd hk (by have := sizeOf_node_pos n; omega)
  | succ k ih =>
    intro n hk st st' r hw
    have hch : ∀ (st2 st3 : σ) (m : Option Node), walkChildren fn st2 n = .ok (st3, m) →
        ∀ a ∈ annotsOpt m, a ∈ annots n := by
      cases n with
      | comment t =>
        intro st2 st3 m hw2
        rw [walkChildren] at hw2
        simp only [Except.ok.injEq, Prod.mk.injEq] at hw2
        rw [← hw2.2]
        exact fun a ha => ha
      | ident v =>
        intro st2 st3 m hw2
        rw [walkChildren] at hw2
        simp only [Except.ok.injEq, Prod.mk.injEq] at hw2
        rw [← hw2.2]
        exact fun a ha => ha
      | basicLit v =>
        intro st2 st3 m hw2
        rw [walkChildren] at hw2
        simp only [Except.ok.injEq, Prod.mk.injEq] at hw2
        rw [← hw2.2]
        exact fun a ha => ha
      | unknown =>
        intro st2 st3 m hw2
        rw [walkChildren] at hw2
        exact absurd hw2 (by simp)
      | commentGroup l =>
        intro st2 st3 m hw2
        rw [walkChildren] at hw2
        have IHl : ∀ x ∈ l, ∀ (st4 st5 : σ) (r2 : Option Node),
            walk fn st4 x = .ok (st5, r2) → ∀ a ∈ annotsOpt r2, a ∈ annots x :=
          fun x hx => ih x
            (by have h1 := List.sizeOf_lt_of_mem hx; simp_arith at hk; omega)
        cases hA : walkList fn asComment st2 l with
        | error e => simp [hA] at hw2
        | ok pr =>
          obtain ⟨st4, out⟩ := pr
          rw [hA] at hw2
          simp only [Except.ok.injEq, Prod.mk.injEq] at hw2
          rw [← hw2.2]
          simp only [annotsOpt, annots]
          exact walkList_sub (fun o v h => asComment_eq_some h) IHl st2 st4 out hA
      | field names ftype tag doc fcomment =>
        intro st2 st3 m hw2
        rw [walkChildren] at hw2
        have IHnames : ∀ x ∈ names, ∀ (st4 st5 : σ) (r2 : Option Node),
            walk fn st4 x = .ok (st5, r2) → ∀ a ∈ annotsOpt r2, a ∈ annots x :=
          fun x hx => ih x
            (by have h1 := List.sizeOf_lt_of_mem hx; simp_arith at hk; omega)
        have IHft : ∀ x, ftype = some x → ∀ (st4 st5 : σ) (r2 : Option Node),
            walk fn st4 x = .ok (st5, r2) → ∀ a ∈ annotsOpt r2, a ∈ annots x := by
          intro x hfx
          exact ih x (by subst hfx; simp_arith at hk; omega)
        have IHtag : ∀ x, tag = some x → ∀ (st4 st5 : σ) (r2 : Option Node),
            walk fn st4 x = .ok (st5, r2) → ∀ a ∈ annotsOpt r2, a ∈ annots x := by
          intro x hfx
          exact ih x (by subst hfx; simp_arith at hk; omega)
        have IHdoc : ∀ x, doc = some x → ∀ (st4 st5 : σ) (r2 : Option Node),
            walk fn st4 x = .ok (st5, r2) → ∀ a ∈ annotsOpt r2, a ∈ annots x := by
          intro x hfx
          exact ih x (by subst hfx; simp_arith at hk; omega)
        have IHcom : ∀ x, fcomment = some x → ∀ (st4 st5 : σ) (r2 : Option Node),
            walk fn st4 x = .ok (st5, r2) → ∀ a ∈ annotsOpt r2, a ∈ annots x := by
          intro x hfx
          exact ih x (by subst hfx; simp_arith at hk; omega)
        cases hA : walkList fn asIdent st2 names with
        | error e => simp [hA] at hw2
        | ok pr =>
        obtain ⟨st4, names1⟩ := pr
        rw [hA] at hw2
        simp only [] at hw2
        have S1 : ∀ a ∈ annotsList names1, a ∈ annotsList names :=
          walkList_sub (fun o v h => asIdent_eq_some h) IHnames st2 st4 names1 hA
        cases hB : walkOpt fn st4 ftype with
        | error e => simp [hB] at hw2
        | ok pr2 =>
        obtain ⟨st5, tr⟩ := pr2
        rw [hB] at hw2
        simp only [] at hw2
        have S2 : ∀ a ∈ annotsOpt tr, a ∈ annotsOpt ftype :=
          walkOpt_sub IHft st4 st5 tr hB
        cases hE : asExpr tr with
        | none =>
          rw [hE] at hw2
          simp only [Except.ok.injEq, Prod.mk.injEq] at hw2
          rw [← hw2.2]
          simp [annotsOpt]
        | some t =>
        rw [hE] at hw2
        simp only [] at hw2
        have htr : tr = some t := asExpr_eq_some hE
        cases hC : walkOpt fn st5 tag with
        | error e => simp [hC] at hw2
        | ok pr3 =>
        obtain ⟨st6, tagR⟩ := pr3
        rw [hC] at hw2
        simp only [] at hw2
        have S3 : ∀ a ∈ annotsOpt tagR, a ∈ annotsOpt tag :=
          walkOpt_sub IHtag st5 st6 tagR hC
        cases hD : walkOpt fn st6 doc with
        | error e => simp [hD] at hw2
        | ok pr4 =>
        obtain ⟨st7, docR⟩ := pr4
        rw [hD] at hw2
        simp only [] at hw2
        have S4 : ∀ a ∈ annotsOpt docR, a ∈ annotsOpt doc :=
          walkOpt_sub IHdoc st6 st7 docR hD
        cases hF : walkOpt fn st7 fcomment with
        | error e => simp [hF] at hw2
        | ok pr5 =>
        obtain ⟨st8, comR⟩ := pr5
        rw [hF] at hw2
        simp only [Except.ok.injEq, Prod.mk.injEq] at hw2
        have S5 : ∀ a ∈ annotsOpt comR, a ∈ annotsOpt fcomment :=
          walkOpt_sub IHcom st7 st8 comR hF
        rw [← hw2.2]
        intro a ha
        simp only [annotsOpt, annots, List.mem_append] at ha ⊢
        rcases ha with ((((h | h) | h) | h) | h)
        · exact Or.inl (Or.inl (Or.inl (Or.inl (S1 a h))))
        · refine Or.inl (Or.inl (Or.inl (Or.inr (S2 a ?_))))
          rw [htr]
          exact h
        · exact Or.inl (Or.inl (Or.inr (S3 a
            (annotsOpt_filter_sub asBasicLit (fun o v h2 => asBasicLit_eq_some h2) tagR a h))))
        · exact Or.inl (Or.inr (S4 a
            (annotsOpt_filter_sub asCommentGroup (fun o v h2 => asCommentGroup_eq_some h2)
              docR a h)))
        · exact Or.inr (S5 a
            (annotsOpt_filter_sub asCommentGroup (fun o v h2 => asCommentGroup_eq_some h2)
              comR a h))
      | fieldList l =>
        intro st2 st3 m hw2
        rw [walkChildren] at hw2
        have IHl : ∀ x ∈ l, ∀ (st4 st5 : σ) (r2 : Option Node),
            walk fn st4 x = .ok (st5, r2) → ∀ a ∈ annotsOpt r2, a ∈ annots x :=
          fun x hx => ih x
            (by have h1 := List.sizeOf_lt_of_mem hx; simp_arith at hk h1; omega)
        cases hemp : l.isEmpty with
        | true =>
          rw [hemp] at hw2
          simp only [if_true] at hw2
          simp only [Except.ok.injEq, Prod.mk.injEq] at hw2
          rw [← hw2.2]
          exact fun a ha => ha
        | false =>
          rw [hemp] at hw2
          simp only [Bool.false_eq_true, if_false] at hw2
          cases hA : walkList fn asField st2 l with
          | error e => simp [hA] at hw2
          | ok pr =>
            obtain ⟨st4, out⟩ := pr
            rw [hA] at hw2
            simp only [] at hw2
            have S1 : ∀ a ∈ annotsList out, a ∈ annotsList l :=
              walkList_sub (fun o v h => asField_eq_some h) IHl st2 st4 out hA
            cases hoe : out.isEmpty with
            | true =>
              rw [hoe] at hw2
              simp only [if_true, Except.ok.injEq, Prod.mk.injEq] at hw2
              rw [← hw2.2]
              simp [annotsOpt]
            | false =>
              rw [hoe] at hw2
              simp only [Bool.false_eq_true, if_false, Except.ok.injEq, Prod.mk.injEq] at hw2
              rw [← hw2.2]
              simpa [annotsOpt, annots] using S1
      | parenExpr x =>
        intro st2 st3 m hw2
        rw [walkChildren] at hw2
        have IHx : ∀ c, x = some c → ∀ (st4 st5 : σ) (r2 : Option Node),
            walk fn st4 c = .ok (st5, r2) → ∀ a ∈ annotsOpt r2, a ∈ annots c := by
          intro c hfx
          exact ih c (by subst hfx; simp_arith at hk; omega)
        cases hA : walkOpt fn st2 x with
        | error e => simp [hA] at hw2
        | ok pr =>
          obtain ⟨st4, xr⟩ := pr
          rw [hA] at hw2
          simp only [] at hw2
          have S1 : ∀ a ∈ annotsOpt xr, a ∈ annotsOpt x :=
            walkOpt_sub IHx st2 st4 xr hA
          cases hE : asExpr xr with
          | none =>
            rw [hE] at hw2
            exact absurd hw2 (by simp)
          | some t =>
            rw [hE] at hw2
            simp only [Except.ok.injEq, Prod.mk.injEq] at hw2
            rw [← hw2.2]
            have hxr : xr = some t := asExpr_eq_some hE
            intro a ha
            simp only [annotsOpt, annots] at ha ⊢
            refine S1 a ?_
            rw [hxr]
            exact ha
      | callExpr func args =>
        intro st2 st3 m hw2
        rw [walkChildren] at hw2
        have IHf : ∀ c, func = some c → ∀ (st4 st5 : σ) (r2 : Option Node),
            walk fn st4 c = .ok (st5, r2) → ∀ a ∈ annotsOpt r2, a ∈ annots c := by
          intro c hfx
          exact ih c (by subst hfx; simp_arith at hk; omega)
        have IHargs : ∀ x ∈ args, ∀ (st4 st5 : σ) (r2 : Option Node),
            walk fn st4 x = .ok (st5, r2) → ∀ a ∈ annotsOpt r2, a ∈ annots x :=
          fun x hx => ih x
            (by have h1 := List.sizeOf_lt_of_mem hx; simp_arith at hk; omega)
        cases hA : walkOpt fn st2 func with
        | error e => simp [hA] at hw2
        | ok pr =>
        obtain ⟨st4, fr⟩ := pr
        rw [hA] at hw2
        simp only [] at hw2
        have S1 : ∀ a ∈ annotsOpt fr, a ∈ annotsOpt func :=
          walkOpt_sub IHf st2 st4 fr hA
        cases hE : asExpr fr with
        | none =>
          rw [hE] at hw2
          simp only [Except.ok.injEq, Prod.mk.injEq] at hw2
          rw [← hw2.2]
          simp [annotsOpt]
        | some f =>
        rw [hE] at hw2
        simp only [] at hw2
        have hfr : fr = some f := asExpr_eq_some hE
        cases hB : walkList fn asExpr st4 args with
        | error e => simp [hB] at hw2
        | ok pr2 =>
          obtain ⟨st5, args1⟩ := pr2
          rw [hB] at hw2
          simp only [Except.ok.injEq, Prod.mk.injEq] at hw2
          have S2 : ∀ a ∈ annotsList args1, a ∈ annotsList args :=
            walkList_sub (fun o v h => asExpr_eq_some h) IHargs st4 st5 args1 hB
          rw [← hw2.2]
          intro a ha
          simp only [annotsOpt, annots, List.mem_append] at ha ⊢
          rcases ha with h | h
          · refine Or.inl (S1 a ?_)
            rw [hfr]
            exact h
          · exact Or.inr (S2 a h)
      | structType fields =>
        intro st2 st3 m hw2
        rw [walkChildren] at hw2
        have IHx : ∀ c, fields = some c → ∀ (st4 st5 : σ) (r2 : Option Node),
            walk fn st4 c = .ok (st5, r2) → ∀ a ∈ annotsOpt r2, a ∈ annots c := by
          intro c hfx
          exact ih c (by subst hfx; simp_arith at hk; omega)
        cases hA : walkOpt fn st2 fields with
        | error e => simp [hA] at hw2
        | ok pr =>
          obtain ⟨st4, flr⟩ := pr
          rw [hA] at hw2
          simp only [] at hw2
          have S1 : ∀ a ∈ annotsOpt flr, a ∈ annotsOpt fields :=
            walkOpt_sub IHx st2 st4 flr hA
          cases hE : asFieldList flr with
          | none =>
            rw [hE] at hw2
            simp only [Except.ok.injEq, Prod.mk.injEq] at hw2
            rw [← hw2.2]
            simp [annotsOpt]
          | some fl =>
            rw [hE] at hw2
            simp only [Except.ok.injEq, Prod.mk.injEq] at hw2
            rw [← hw2.2]
            have hflr : flr = some fl := asFieldList_eq_some hE
            intro a ha
            simp only [annotsOpt, annots] at ha ⊢
            refine S1 a ?_
            rw [hflr]
            exact ha
      | exprStmt x =>
        intro st2 st3 m hw2
        rw [walkChildren] at hw2
        have IHx : ∀ c, x = some c → ∀ (st4 st5 : σ) (r2 : Option Node),
            walk fn st4 c = .ok (st5, r2) → ∀ a ∈ annotsOpt r2, a ∈ annots c := by
          intro c hfx
          exact ih c (by subst hfx; simp_arith at hk; omega)
        cases hA : walkOpt fn st2 x with
        | error e => simp [hA] at hw2
        | ok pr =>
          obtain ⟨st4, xr⟩ := pr
          rw [hA] at hw2
          simp only [] at hw2
          have S1 : ∀ a ∈ annotsOpt xr, a ∈ annotsOpt x :=
            walkOpt_sub IHx st2 st4 xr hA
          cases hE : asExpr xr with
          | none =>
            rw [hE] at hw2
            simp only [Except.ok.injEq, Prod.mk.injEq] at hw2
            rw [← hw2.2]
            simp [annotsOpt]
          | some t =>
            rw [hE] at hw2
            simp only [Except.ok.injEq, Prod.mk.injEq] at hw2
            rw [← hw2.2]
            have hxr : xr = some t := asExpr_eq_some hE
            intro a ha
            simp only [annotsOpt, annots] at ha ⊢
            refine S1 a ?_
            rw [hxr]
            exact ha
      | blockStmt l =>
        intro st2 st3 m hw2
        rw [walkChildren] at hw2
        have IHl : ∀ x ∈ l, ∀ (st4 st5 : σ) (r2 : Option Node),
            walk fn st4 x = .ok (st5, r2) → ∀ a ∈ annotsOpt r2, a ∈ annots x :=
          fun x hx => ih x
            (by have h1 := List.sizeOf_lt_of_mem hx; simp_arith at hk; omega)
        cases hA : walkList fn asStmt st2 l with
        | error e => simp [hA] at hw2
        | ok pr =>
          obtain ⟨st4, out⟩ := pr
          rw [hA] at hw2
          simp only [Except.ok.injEq, Prod.mk.injEq] at hw2
          rw [← hw2.2]
          simp only [annotsOpt, annots]
          exact walkList_sub (fun o v h => asStmt_eq_some h) IHl st2 st4 out hA
      | typeSpec doc name ttype tcomment =>
        intro st2 st3 m hw2
        have IHc : ∀ c, tcomment = some c → ∀ (st4 st5 : σ) (r2 : Option Node),
            walk fn st4 c = .ok (st5, r2) → ∀ a ∈ annotsOpt r2, a ∈ annots c := by
          intro c hfx
          exact ih c (by subst hfx; simp_arith at hk; omega)
        rcases tcomment with _ | c
        · rw [walkChildren] at hw2
          cases hA : walkOpt fn st2 name with
          | error e => simp [hA] at hw2
          | ok pr =>
            obtain ⟨st4, nr⟩ := pr
            rw [hA] at hw2
            simp only [] at hw2
            cases hB : walkOpt fn st4 ttype with
            | error e => simp [hB] at hw2
            | ok pr2 =>
              obtain ⟨st5, tr⟩ := pr2
              rw [hB] at hw2
              simp only [Except.ok.injEq, Prod.mk.injEq] at hw2
              rw [← hw2.2]
              exact fun a ha => ha
        · rw [walkChildren] at hw2
          cases hA : walkOpt fn st2 name with
          | error e => simp [hA] at hw2
          | ok pr =>
          obtain ⟨st4, nr⟩ := pr
          rw [hA] at hw2
          simp only [] at hw2
          cases hB : walkOpt fn st4 ttype with
          | error e => simp [hB] at hw2
          | ok pr2 =>
          obtain ⟨st5, tr⟩ := pr2
          rw [hB] at hw2
          simp only [] at hw2
          cases hC : walk fn st5 c with
          | error e => simp [hC] at hw2
          | ok pr3 =>
            obtain ⟨st6, cr⟩ := pr3
            rw [hC] at hw2
            simp only [] at hw2
            have S1 : ∀ a ∈ annotsOpt cr, a ∈ annots c :=
              ih c (by simp_arith at hk; omega) st5 st6 cr hC
            cases hE : asCommentGroup cr with
            | none =>
              rw [hE] at hw2
              exact absurd hw2 (by simp)
            | some cg =>
              rw [hE] at hw2
              simp only [Except.ok.injEq, Prod.mk.injEq] at hw2
              rw [← hw2.2]
              have hcr : cr = some cg := asCommentGroup_eq_some hE
              intro a ha
              simp only [annotsOpt, annots, List.mem_append] at ha ⊢
              rcases ha with ((h | h) | h) | h
              · exact Or.inl (Or.inl (Or.inl h))
              · exact Or.inl (Or.inl (Or.inr h))
              · exact Or.inl (Or.inr h)
              · refine Or.inr (S1 a ?_)
                rw [hcr]
                exact h
      | genDecl doc specs =>
        intro st2 st3 m hw2
        have IHspecs : ∀ x ∈ specs, ∀ (st4 st5 : σ) (r2 : Option Node),
            walk fn st4 x = .ok (st5, r2) → ∀ a ∈ annotsOpt r2, a ∈ annots x :=
          fun x hx => ih x
            (by have h1 := List.sizeOf_lt_of_mem hx; simp_arith at hk; omega)
        rcases doc with _ | d
        · rw [walkChildren] at hw2
          cases hA : walkList fn asSpec st2 specs with
          | error e => simp [hA] at hw2
          | ok pr =>
            obtain ⟨st4, specs1⟩ := pr
            rw [hA] at hw2
            simp only [] at hw2
            have S1 : ∀ a ∈ annotsList specs1, a ∈ annotsList specs :=
              walkList_sub (fun o v h => asSpec_eq_some h) IHspecs st2 st4 specs1 hA
            cases hoe : specs1.isEmpty with
            | true =>
              rw [hoe] at hw2
              simp only [if_true, Except.ok.injEq, Prod.mk.injEq] at hw2
              rw [← hw2.2]
              simp [annotsOpt]
            | false =>
              rw [hoe] at hw2
              simp only [Bool.false_eq_true, if_false, Except.ok.injEq, Prod.mk.injEq] at hw2
              rw [← hw2.2]
              intro a ha
              simp only [annotsOpt, annots, annotsOpt, List.mem_append] at ha ⊢
              rcases ha with h | h
              · exact Or.inl h
              · exact Or.inr (S1 a h)
        · rw [walkChildren] at hw2
          cases hA : walkList fn asSpec st2 specs with
          | error e => simp [hA] at hw2
          | ok pr =>
          obtain ⟨st4, specs1⟩ := pr
          rw [hA] at hw2
          simp only [] at hw2
          have S1 : ∀ a ∈ annotsList specs1, a ∈ annotsList specs :=
            walkList_sub (fun o v h => asSpec_eq_some h) IHspecs st2 st4 specs1 hA
          cases hoe : specs1.isEmpty with
          | true =>
            rw [hoe] at hw2
            simp only [if_true, Except.ok.injEq, Prod.mk.injEq] at hw2
            rw [← hw2.2]
            simp [annotsOpt]
          | false =>
          rw [hoe] at hw2
          simp only [Bool.false_eq_true, if_false] at hw2
          cases hC : walk fn st4 d with
          | error e => simp [hC] at hw2
          | ok pr2 =>
            obtain ⟨st5, dr⟩ := pr2
            rw [hC] at hw2
            simp only [] at hw2
            have S2 : ∀ a ∈ annotsOpt dr, a ∈ annots d :=
              ih d (by simp_arith at hk; omega) st4 st5 dr hC
            cases hE : asCommentGroup dr with
            | none =>
              rw [hE] at hw2
              exact absurd hw2 (by simp)
            | some cg =>
              rw [hE] at hw2
              simp only [Except.ok.injEq, Prod.mk.injEq] at hw2
              rw [← hw2.2]
              have hdr : dr = some cg := asCommentGroup_eq_some hE
              intro a ha
              simp only [annotsOpt, annots, List.mem_append] at ha ⊢
              rcases ha with h | h
              · refine Or.inl (S2 a ?_)
                rw [hdr]
                exact h
              · exact Or.inr (S1 a h)
    rw [walk] at hw
    split at hw
    · cases hc : walkChildren fn (fn st (some n)).1 n with
      | error e =>
        rw [hc] at hw
        exact absurd hw (by simp)
      | ok pr =>
        obtain ⟨st2, o⟩ := pr
        rw [hc] at hw
        cases o with
        | none =>
          simp only [Except.ok.injEq, Prod.mk.injEq] at hw
          rw [← hw.2]
          simp [annotsOpt]
        | some m =>
          simp only [Except.ok.injEq, Prod.mk.injEq] at hw
          have hsub : ∀ a ∈ annots m, a ∈ annots n := by
            have := hch _ _ _ hc
            simpa [annotsOpt] using this
          rcases hKR st (some n) with hkr | hkr <;> rw [hkr] at hw
          · rw [← hw.2]
            simp only [applyRes, annotsOpt]
            exact hsub
          · rw [← hw.2]
            simp [applyRes, annotsOpt]
    · simp only [Except.ok.injEq, Prod.mk.injEq] at hw
      rcases hKR st (some n) with hkr | hkr <;> rw [hkr] at hw
      · rw [← hw.2]
        simp only [applyRes, annotsOpt]
        exact fun a ha => ha
      · rw [← hw.2]
        simp [applyRes, annotsOpt]

theorem walk_remove_none {σ : Type} {fn : Visitor σ} {x : Node}
    (hrm : ∀ s : σ, (fn s (some x)).2.1 = .remove) :
    ∀ (st st' : σ) (m : Option Node), walk fn st x = .ok (st', m) → m = none := by
  intro st st' m hw
  rw [walk] at hw
  split at hw
  · cases hc : walkChildren fn (fn st (some x)).1 x with
    | error e =>
      rw [hc] at hw
      exact absurd hw (by simp)
    | ok pr =>
      obtain ⟨st2, o⟩ := pr
      rw [hc] at hw
      cases o with
      | none =>
        simp only [Except.ok.injEq, Prod.mk.injEq] at hw
        exact hw.2.symm
      | some mm =>
        simp only [Except.ok.injEq, Prod.mk.injEq] at hw
        rw [← hw.2, hrm st]
        simp [applyRes]
  · simp only [Except.ok.injEq, Prod.mk.injEq] at hw
    rw [← hw.2, hrm st]
    simp [applyRes]

theorem walkList_drop {σ : Type} {fn : Visitor σ} (hKR : KR fn)
    {keepF : Option Node → Option Node} (hkF : ∀ o v, keepF o = some v → o = some v)
    {x : Node} (hrm : ∀ s : σ, (fn s (some x)).2.1 = .remove) {a : Nat} :
    ∀ {l : List Node}, (∀ y ∈ l, a ∈ annots y → y = x) →
      ∀ (st st' : σ) (out : List Node), walkList fn keepF st l = .ok (st', out) →
        a ∉ annotsList out := by
  intro l
  induction l with
  | nil =>
    intro _ st st' out h
    rw [walkList] at h
    simp only [Except.ok.injEq, Prod.mk.injEq] at h
    rw [← h.2]
    simp [annotsList]
  | cons y rest ih =>
    intro huniq st st' out h
    rw [walkList] at h
    cases hx : walk fn st y with
    | error e => simp [hx] at h
    | ok pr =>
      obtain ⟨st1, r⟩ := pr
      rw [hx] at h
      simp only [] at h
      cases h1 : walkList fn keepF st1 rest with
      | error e => simp [h1] at h
      | ok q =>
        obtain ⟨st2, out1⟩ := q
        rw [h1] at h
        simp only [] at h
        have hrest : a ∉ annotsList out1 :=
          ih (fun z hz => huniq z (by simp [hz])) st1 st2 out1 h1
        cases hk : keepF r with
        | some v =>
          rw [hk] at h
          simp only [Except.ok.injEq, Prod.mk.injEq] at h
          rw [← h.2]
          intro ha
          rw [annotsList] at ha
          rcases List.mem_append.mp ha with hv | ho
          · have hr : r = some v := hkF r v hk
            have hay : a ∈ annots y :=
              walk_annots_aux fn hKR (sizeOf y) y le_rfl st st1 r hx a (by rw [hr]; exact hv)
            have hyx : y = x := huniq y (by simp) hay
            rw [hyx] at hx
            have : r = none := walk_remove_none hrm st st1 r hx
            rw [this] at hr
            exact absurd hr (by simp)
          · exact hrest ho
        | none =>
          rw [hk] at h
          simp only [Except.ok.injEq, Prod.mk.injEq] at h
          rw [← h.2]
          exact hrest

theorem asExpr_isExpr {o : Option Node} {v : Node} (h : asExpr o = some v) : isExpr v = true := by
  unfold asExpr at h
  split at h
  · split at h
    · simp_all
    · simp at h
  · simp at h

theorem asStmt_isStmt {o : Option Node} {v : Node} (h : asStmt o = some v) : isStmt v = true := by
  unfold asStmt at h
  split at h
  · split at h
    · simp_all
    · simp at h
  · simp at h

/-- Claim C1: the claim states that a visitor replacement whose family does
not match the slot aborts the walk fatally in every position.  The code
contradicts this (and its own doc comment, which promises a panic for a
wrongly typed return): in walkExprList the comma-ok assertion silently
treats the mismatched replacement like a removal and drops it.  Evaluating
the code at the failing input: replacing `ident 1` by an (empty) block
statement inside an expression list yields the list with the element
silently dropped and no fatal failure. -/
theorem C1_mismatch_silently_dropped :
    walkExprList mismatchV 0 [.ident 1] = .ok (1, []) := by
  rw [walkExprList, walkList, walk]
  simp [mismatchV, walkList, applyRes, asExpr, isExpr]

/-- Claim C2 counterexample: the claim states that a nil result with
descend = true returns the removal signal without visiting any child and
without the post-order call.  On `ParenExpr (ident 5)` with the tracing
visitor (which asks to remove the ParenExpr but still descend), the walk
does return the removal signal, but the trace [1, 105, 0, 0] records the
visit of the ParenExpr (1), the visit of the child ident 5 (105) and two
post-order fn(nil) calls (0, 0) — the children were walked and the
post-order call happened. -/
theorem C2_removal_still_descends_cex :
    walk traceV [] (.parenExpr (some (.ident 5))) = .ok ([1, 105, 0, 0], none) := by
  rw [walk]
  simp only [traceV]
  rw [walkChildren, walkOpt, walk]
  simp [traceV, walkChildren, applyRes, asExpr, isExpr]

/-- Claim C2 (amended): when the visitor returns the removal signal with
descend = true, Walk still walks the children of the original node and
still makes the post-order fn(nil) call, and only then returns the removal
signal (an error or a cascade inside the children propagates instead). -/
theorem C2_removal_descends_then_removes {σ : Type} (fn : Visitor σ) (st st1 : σ) (n : Node)
    (h : fn st (some n) = (st1, .remove, true)) :
    walk fn st n =
      (match walkChildren fn st1 n with
      | .error e => .error e
      | .ok (st2, none) => .ok (st2, none)
      | .ok (st2, some _) => .ok ((fn st2 none).1, none)) := by
  rw [walk, h]
  simp only []
  cases hc : walkChildren fn st1 n with
  | error e => simp
  | ok pr =>
    obtain ⟨st2, o⟩ := pr
    cases o <;> simp [applyRes]

/-- Witness for C2: the amended statement applied to the tracing visitor on
`ParenExpr (ident 5)`, with the visitor hypothesis discharged by rfl; the
children having been walked successfully, the result is the removal signal
reached after the post-order call. -/
theorem C2_removal_descends_then_removes_witness :
    walk traceV [] (.parenExpr (some (.ident 5))) = .ok ([1, 105, 0, 0], none) := by
  have h := C2_removal_descends_then_removes traceV [] [1] (.parenExpr (some (.ident 5))) rfl
  rw [h]
  rw [walkChildren, walkOpt, walk]
  rw [walkChildren]
  simp [traceV, applyRes, asExpr, isExpr]

/-- Claim C3 counterexample: the claim states that removal of a
required-single child always cascades (the parent is removed and the walk
returns the removal signal).  For ParenExpr.X the code asserts the walk
result without the comma-ok form, so removing the child `ident 1` panics
(assertion failure) instead of cascading. -/
theorem C3_required_slot_panics_cex :
    walk (rmIdentV (σ := Unit)) () (.parenExpr (some (.ident 1))) = .error .assertFailed := by
  rw [walk]
  simp only [rmIdentV]
  rw [walkChildren, walkOpt, walk]
  simp [rmIdentV, applyRes, asExpr, isExpr]

/-- Claim C3 (amended): for the required-single slots read through a
checked (comma-ok) assertion — Field.Type and CallExpr.Fun here — removal
of the child makes the walk stop processing the node's remaining slots and
return the removal signal for the whole node: for Field the Tag/Doc/Comment
slots are no longer touched, for CallExpr the argument list is no longer
walked.  Slots asserted without comma-ok (e.g. ParenExpr.X) panic instead,
as the counterexample shows. -/
theorem C3_checked_required_cascades :
    (∀ (σ : Type) (fn : Visitor σ) (st st1 : σ) (res : VisitResult)
      (names : List Node) (ftype tag doc fcomment : Option Node)
      (st2 : σ) (names1 : List Node) (st3 : σ) (tr : Option Node),
      fn st (some (.field names ftype tag doc fcomment)) = (st1, res, true) →
      walkIdentList fn st1 names = .ok (st2, names1) →
      walkOpt fn st2 ftype = .ok (st3, tr) →
      asExpr tr = none →
      walk fn st (.field names ftype tag doc fcomment) = .ok (st3, none)) ∧
    (∀ (σ : Type) (fn : Visitor σ) (st st1 : σ) (res : VisitResult)
      (func : Option Node) (args : List Node) (st2 : σ) (fr : Option Node),
      fn st (some (.callExpr func args)) = (st1, res, true) →
      walkOpt fn st1 func = .ok (st2, fr) →
      asExpr fr = none →
      walk fn st (.callExpr func args) = .ok (st2, none)) := by
  constructor
  · intro σ fn st st1 res names ftype tag doc fcomment st2 names1 st3 tr hfn hnames hft hE
    rw [walkIdentList] at hnames
    rw [walk, hfn]
    simp only []
    rw [walkChildren, hnames]
    simp only []
    rw [hft]
    simp only []
    rw [hE]
    simp
  · intro σ fn st st1 res func args st2 fr hfn hf hE
    rw [walk, hfn]
    simp only []
    rw [walkChildren, hf]
    simp only []
    rw [hE]
    simp

/-- Witness for C3: both checked-slot cascades at concrete inputs with the
ident-removing visitor. -/
theorem C3_checked_required_cascades_witness :
    walk (rmIdentV (σ := Unit)) () (.field [] (some (.ident 1)) none none none) =
      .ok ((), none) ∧
    walk (rmIdentV (σ := Unit)) () (.callExpr (some (.ident 1)) [.ident 2]) =
      .ok ((), none) :=
  ⟨C3_checked_required_cascades.1 Unit rmIdentV () () .keep [] (some (.ident 1)) none none none
      () [] () none rfl (by rw [walkIdentList, walkList]) (by rw [walkOpt, walk]; rfl) rfl,
    C3_checked_required_cascades.2 Unit rmIdentV () () .keep (some (.ident 1)) [.ident 2]
      () none rfl (by rw [walkOpt, walk]; rfl) rfl⟩

/-- Claim C4: walking a GenDecl whose Specs collection is emptied by the
walk removes the whole declaration, while removing only some specs keeps
the declaration with exactly the survivors (here for a GenDecl without a
Doc group, under a visitor that keeps the GenDecl itself). -/
theorem C4_gendecl_spec_removal {σ : Type} (fn : Visitor σ) (st st1 : σ)
    (specs : List Node) (st2 : σ) (specs1 : List Node)
    (hfn : fn st (some (.genDecl none specs)) = (st1, .keep, true))
    (hs : walkSpecList fn st1 specs = .ok (st2, specs1)) :
    walk fn st (.genDecl none specs) =
      (if specs1.isEmpty then .ok (st2, none)
      else .ok ((fn st2 none).1, some (.genDecl none specs1))) := by
  rw [walkSpecList] at hs
  rw [walk, hfn]
  simp only []
  rw [walkChildren, hs]
  simp only []
  cases he : specs1.isEmpty <;> simp [he, applyRes]

/-- Witness for C4: both scenarios of the claim.  Removing the only spec
of `Decl{ Specs: [SpecA] }` removes the declaration; removing SpecB from
`Decl{ Specs: [SpecA, SpecB] }` keeps the declaration with `[SpecA]`. -/
theorem C4_gendecl_spec_removal_witness :
    walk (rmSpecV 1 (σ := Unit)) ()
        (.genDecl none [.typeSpec none (some (.ident 1)) (some (.ident 10)) none]) =
      .ok ((), none) ∧
    walk (rmSpecV 2 (σ := Unit)) ()
        (.genDecl none [.typeSpec none (some (.ident 1)) (some (.ident 10)) none,
          .typeSpec none (some (.ident 2)) (some (.ident 20)) none]) =
      .ok ((), some (.genDecl none
        [.typeSpec none (some (.ident 1)) (some (.ident 10)) none])) := by
  constructor
  · have h := C4_gendecl_spec_removal (rmSpecV 1) () ()
      [.typeSpec none (some (.ident 1)) (some (.ident 10)) none] () [] rfl
      (by rw [walkSpecList]
          simp [walkList, walk, walkChildren, walkOpt, rmSpecV, applyRes, asSpec, isSpec])
    simpa using h
  · have h := C4_gendecl_spec_removal (rmSpecV 2) () ()
      [.typeSpec none (some (.ident 1)) (some (.ident 10)) none,
        .typeSpec none (some (.ident 2)) (some (.ident 20)) none] ()
      [.typeSpec none (some (.ident 1)) (some (.ident 10)) none] rfl
      (by rw [walkSpecList]
          simp [walkList, walk, walkChildren, walkOpt, rmSpecV, applyRes, asSpec, isSpec])
    simpa using h

/-- Claim C5 counterexample: the claim states that for every optional
single slot, removal of the child clears the slot and processing continues
with no cascade.  GenDecl.Doc is an optional single slot (walked only when
present), yet the code asserts the walk result without the comma-ok form:
removing the doc comment group panics (assertion failure) instead of
clearing the slot. -/
theorem C5_optional_doc_panics_cex :
    walk (rmGroupV (σ := Unit)) ()
        (.genDecl (some (.commentGroup [.comment 7]))
          [.typeSpec none (some (.ident 1)) (some (.ident 10)) none]) =
      .error .assertFailed := by
  rw [walk]
  simp only [rmGroupV]
  rw [walkChildren]
  simp [walkList, walk, walkChildren, walkOpt, rmGroupV, applyRes, asSpec, isSpec,
    asCommentGroup]

/-- Claim C5 (amended): for the optional single slots read back through a
checked (comma-ok) assertion — Field.Tag, Field.Doc and Field.Comment
here — removal of the child clears the slot to absent and processing of
the remaining slots continues, the other fields unchanged.  Optional slots
asserted without comma-ok (GenDecl.Doc, TypeSpec.Comment) panic instead,
as the counterexample shows. -/
theorem C5_optional_checked_clears {σ : Type} (fn : Visitor σ) (st st1 : σ)
    (names : List Node) (ftype tag doc fcomment : Option Node)
    (st2 : σ) (names1 : List Node) (st3 : σ) (tr : Option Node) (t : Node)
    (st4 : σ) (tagR : Option Node) (st5 : σ) (docR : Option Node)
    (st6 : σ) (comR : Option Node)
    (hfn : fn st (some (.field names ftype tag doc fcomment)) = (st1, .keep, true))
    (hnames : walkIdentList fn st1 names = .ok (st2, names1))
    (hft : walkOpt fn st2 ftype = .ok (st3, tr)) (hE : asExpr tr = some t)
    (htag : walkOpt fn st3 tag = .ok (st4, tagR))
    (hdoc : walkOpt fn st4 doc = .ok (st5, docR))
    (hcom : walkOpt fn st5 fcomment = .ok (st6, comR)) :
    walk fn st (.field names ftype tag doc fcomment) =
      .ok ((fn st6 none).1, some (.field names1 (some t) (asBasicLit tagR)
        (asCommentGroup docR) (asCommentGroup comR))) := by
  rw [walkIdentList] at hnames
  rw [walk, hfn]
  simp only []
  rw [walkChildren, hnames]
  simp only []
  rw [hft]
  simp only []
  rw [hE]
  simp only []
  rw [htag]
  simp only []
  rw [hdoc]
  simp only []
  rw [hcom]
  simp [applyRes]

/-- Witness for C5: removing the BasicLit tag of a Field clears the Tag
slot and keeps the rest of the Field intact. -/
theorem C5_optional_checked_clears_witness :
    walk (rmLitV (σ := Unit)) ()
        (.field [.ident 1] (some (.ident 2)) (some (.basicLit 3)) none none) =
      .ok ((), some (.field [.ident 1] (some (.ident 2)) none none none)) := by
  have h := C5_optional_checked_clears rmLitV () () [.ident 1] (some (.ident 2))
      (some (.basicLit 3)) none none () [.ident 1] () (some (.ident 2)) (.ident 2)
      () none () none () none rfl
      (by rw [walkIdentList]
          simp [walkList, walk, walkChildren, walkOpt, rmLitV, applyRes, asIdent])
      (by rw [walkOpt, walk]
          simp [walkChildren, rmLitV, applyRes])
      rfl
      (by rw [walkOpt, walk]; simp [rmLitV, applyRes])
      (by rw [walkOpt])
      (by rw [walkOpt])
  simpa [asBasicLit, asCommentGroup] using h

/-- Claim C6 counterexample: the claim states that no annotation attached
to a removed node survives anywhere in the final tree.  The visitor below
removes the field typed `ident 1` (whose doc group contains comment 5) and
replaces the field typed `ident 2` by a fresh field that re-attaches
comment 5: the walk succeeds and comment 5, attached to the removed field
before the walk, is attached to a node of the final tree. -/
theorem C6_annotation_smuggled_cex :
    walk (smugV (σ := Unit)) ()
        (.fieldList [.field [] (some (.ident 1)) none
            (some (.commentGroup [.comment 5])) none,
          .field [] (some (.ident 2)) none none none]) =
      .ok ((), some (.fieldList [.field [] (some (.ident 3)) none
        (some (.commentGroup [.comment 5])) none])) ∧
    5 ∈ annots (.field [] (some (.ident 1)) none
      (some (.commentGroup [.comment 5])) none) ∧
    5 ∈ annots (.fieldList [.field [] (some (.ident 3)) none
      (some (.commentGroup [.comment 5])) none]) := by
  refine ⟨?_, by decide, by decide⟩
  rw [walk]
  simp only [smugV]
  rw [walkChildren]
  simp [walkList, walk, walkChildren, walkOpt, smugV, applyRes, asField, asExpr, isExpr,
    asIdent, asComment, asCommentGroup, asBasicLit]

/-- Claim C6 (amended): restricted to keep-or-remove visitors (the
returned node is always the visited node itself or the removal signal,
never a fresh node), walking a FieldList does satisfy the
annotation-orphan law: if the visitor removes every occurrence of a node
x, then an annotation a carried by x and by no other element of the list
does not appear in the result tree. -/
theorem C6_kr_annotations_dropped {σ : Type} (fn : Visitor σ) (hKR : KR fn)
    {x : Node} (hrm : ∀ s : σ, (fn s (some x)).2.1 = .remove)
    {l : List Node} {a : Nat} (huniq : ∀ y ∈ l, a ∈ annots y → y = x)
    (st st1 : σ) (hdesc : fn st (some (.fieldList l)) = (st1, .keep, true)) :
    ∀ (st2 : σ) (r : Option Node), walk fn st (.fieldList l) = .ok (st2, r) →
      a ∉ annotsOpt r := by
  intro st2 r hw
  rw [walk, hdesc] at hw
  simp only [] at hw
  rw [walkChildren] at hw
  cases hle : l.isEmpty
  · rw [hle] at hw
    simp only [if_neg Bool.false_ne_true, Bool.false_eq_true, if_false] at hw
    cases hwl : walkList fn asField st1 l with
    | error e =>
      rw [hwl] at hw
      exact absurd hw (by simp)
    | ok pr =>
      obtain ⟨st3, out⟩ := pr
      rw [hwl] at hw
      simp only [] at hw
      cases hoe : out.isEmpty
      · rw [hoe] at hw
        simp only [Bool.false_eq_true, if_false, if_true, Except.ok.injEq,
          Prod.mk.injEq] at hw
        rw [← hw.2]
        simp only [applyRes, annotsOpt, annots]
        exact walkList_drop hKR (fun o v h => asField_eq_some h) hrm huniq st1 st3 out hwl
      · rw [hoe] at hw
        simp only [if_true, Except.ok.injEq, Prod.mk.injEq] at hw
        rw [← hw.2]
        simp [annotsOpt]
  · rw [hle] at hw
    simp only [if_true, Except.ok.injEq, Prod.mk.injEq] at hw
    rw [← hw.2]
    have hl : l = [] := List.isEmpty_iff.mp hle
    subst hl
    simp [applyRes, annotsOpt, annots, annotsList]

/-- Witness for C6: the keep-or-remove visitor that removes the field
typed `ident 1` leaves no trace of its comment 5 in the walked
FieldList. -/
theorem C6_kr_annotations_dropped_witness :
    5 ∉ annotsOpt (some (.fieldList [.field [] (some (.ident 2)) none none none])) := by
  have h := C6_kr_annotations_dropped (σ := Unit) rmFieldOneV
    (by intro s o
        unfold rmFieldOneV
        split <;> simp)
    (x := .field [] (some (.ident 1)) none (some (.commentGroup [.comment 5])) none)
    (fun s => rfl)
    (l := [.field [] (some (.ident 1)) none (some (.commentGroup [.comment 5])) none,
      .field [] (some (.ident 2)) none none none])
    (a := 5)
    (by intro y hy h5
        rcases List.mem_cons.mp hy with h | h
        · exact h
        · rcases List.mem_cons.mp h with h2 | h2
          · rw [h2] at h5
            exact absurd h5 (by decide)
          · simp at h2)
    () () rfl ()
    (some (.fieldList [.field [] (some (.ident 2)) none none none]))
    (by rw [walk]
        simp only [rmFieldOneV]
        rw [walkChildren]
        simp [walkList, walk, walkChildren, walkOpt, rmFieldOneV, applyRes, asField,
          asExpr, isExpr, asIdent, asComment, asCommentGroup, asBasicLit])
  exact h

/-- Claim C7: for the expression-list and statement-list collection
walkers, survivors appear in the output in the original relative order
with no gaps: walking a concatenation walks the left part first and the
right part second, and the output is exactly the concatenation of the two
survivor lists. -/
theorem C7_order_preserved :
    (∀ (σ : Type) (fn : Visitor σ) (l1 l2 : List Node) (st : σ),
      walkExprList fn st (l1 ++ l2) =
        (match walkExprList fn st l1 with
        | .error e => .error e
        | .ok (st1, o1) =>
          match walkExprList fn st1 l2 with
          | .error e => .error e
          | .ok (st2, o2) => .ok (st2, o1 ++ o2))) ∧
    (∀ (σ : Type) (fn : Visitor σ) (l1 l2 : List Node) (st : σ),
      walkStmtList fn st (l1 ++ l2) =
        (match walkStmtList fn st l1 with
        | .error e => .error e
        | .ok (st1, o1) =>
          match walkStmtList fn st1 l2 with
          | .error e => .error e
          | .ok (st2, o2) => .ok (st2, o1 ++ o2))) :=
  ⟨fun σ fn l1 l2 st => walkList_append fn asExpr l1 l2 st,
    fun σ fn l1 l2 st => walkList_append fn asStmt l1 l2 st⟩

/-- Claim C8 counterexample: the claim states the identity visitor yields
a tree structurally identical to the input for EVERY input.  A GenDecl
with an empty Specs list falls into the emptied-collection cascade even
though nothing was removed: the identity walk returns the removal signal,
not the input tree. -/
theorem C8_identity_fails_empty_gendecl_cex :
    walk (idVisitor (σ := Unit)) () (.genDecl none []) = .ok ((), none) := by
  rw [walk]
  simp only [idVisitor]
  rw [walkChildren]
  simp [walkList, applyRes]

/-- Claim C8 (amended): on well-formed trees — every slot holding a node
of the family the walker writes back, and removal-triggering collections
nonempty — the identity visitor returns the input tree unchanged, with the
visitor state threaded through untouched. -/
theorem C8_identity_on_wf {σ : Type} (n : Node) (hwf : wf n = true) (st : σ) :
    walk idVisitor st n = .ok (st, some n) :=
  walk_id_aux (sizeOf n) n le_rfl hwf st

/-- Witness for C8: the identity walk of a well-formed struct type returns
it unchanged. -/
theorem C8_identity_on_wf_witness :
    walk (idVisitor (σ := Unit)) ()
        (.structType (some (.fieldList
          [.field [.ident 1] (some (.ident 2)) none none none]))) =
      .ok ((), some (.structType (some (.fieldList
        [.field [.ident 1] (some (.ident 2)) none none none])))) :=
  C8_identity_on_wf
    (.structType (some (.fieldList [.field [.ident 1] (some (.ident 2)) none none none])))
    (by decide) ()

/-- Claim C9: when the walker descends into a node of a kind absent from
its dispatch table, the walk aborts with the fatal unknown-node failure —
an error, hence distinct from every removal signal, which is a successful
result carrying nil; and on trees free of unknown kinds this failure is
unreachable (the only possible failure is the assertion panic). -/
theorem C9_unknown_kind_fatal {σ : Type} (fn : Visitor σ) :
    (∀ (st st1 : σ) (res : VisitResult),
      fn st (some .unknown) = (st1, res, true) →
        walk fn st .unknown = .error .unknownNode) ∧
    (∀ n : Node, noUnknown n = true → ∀ st : σ,
      walk fn st n ≠ .error .unknownNode) := by
  constructor
  · intro st st1 res hfn
    rw [walk, hfn]
    simp only []
    rw [walkChildren]
    simp
  · intro n hn st hw
    have h := walk_noUnk_aux fn (sizeOf n) n le_rfl hn st .unknownNode hw
    exact absurd h (by decide)

/-- Witness for C9: the identity visitor on the unknown node hits the
fatal failure, and on `ident 1` (an unknown-free tree) it cannot. -/
theorem C9_unknown_kind_fatal_witness :
    walk (idVisitor (σ := Unit)) () .unknown = .error .unknownNode ∧
    walk (idVisitor (σ := Unit)) () (.ident 1) ≠ .error .unknownNode :=
  ⟨(C9_unknown_kind_fatal idVisitor).1 () () .keep rfl,
    (C9_unknown_kind_fatal idVisitor).2 (.ident 1) (by decide) ()⟩

/-- Claim C10 counterexample: the claim states that a replacement R with
descend = true always yields R as the return value.  If walking the
children of the original node cascades (here: the required child of the
expression statement is removed), the replacement is silently discarded
and the removal signal is returned instead. -/
theorem C10_replacement_discarded_cex :
    walk (replStmtRmV (σ := Unit)) () (.exprStmt (some (.ident 1))) = .ok ((), none) := by
  rw [walk]
  simp only [replStmtRmV]
  rw [walkChildren, walkOpt, walk]
  simp [replStmtRmV, applyRes, asExpr]

/-- Claim C10 (amended): when the visitor returns a replacement R with
descend = true, Walk recurses into the children of the ORIGINAL node (R
never appears in the child walk, so R's own subtree is not visited), and
returns R exactly when the child walk of the original completes without
error or cascade; on a cascade the removal signal is returned and R is
discarded. -/
theorem C10_replace_walks_original_children {σ : Type} (fn : Visitor σ) (st st1 : σ)
    (n r : Node) (hfn : fn st (some n) = (st1, .replace r, true)) :
    walk fn st n =
      (match walkChildren fn st1 n with
      | .error e => .error e
      | .ok (st2, none) => .ok (st2, none)
      | .ok (st2, some _) => .ok ((fn st2 none).1, some r)) := by
  rw [walk, hfn]
  simp only []
  cases hc : walkChildren fn st1 n with
  | error e => simp
  | ok pr =>
    obtain ⟨st2, o⟩ := pr
    cases o <;> simp [applyRes]

/-- Witness for C10: replacing an expression statement whose child
survives returns the replacement `ident 9`, the children of the original
statement having been walked. -/
theorem C10_replace_walks_original_children_witness :
    walk (replStmtV (σ := Unit)) () (.exprStmt (some (.ident 1))) =
      .ok ((), some (.ident 9)) := by
  have h := C10_replace_walks_original_children replStmtV () ()
    (.exprStmt (some (.ident 1))) (.ident 9) rfl
  rw [h]
  rw [walkChildren, walkOpt, walk]
  rw [walkChildren]
  simp [replStmtV, applyRes, asExpr, isExpr]

end Arw
